import Mathlib

/-!
Verification of the patch-application engine specification for the
windows-claudia repository of fix scripts.

The repository consists of Python scripts that read a target file, replace
literal text blocks (via `str.replace`) or regex matches (via `re.search` /
`re.sub`) and write the file back.  The specification abstracts these
scripts into a patch application engine (Matcher / Transform / PatchSet /
Engine).  Text is modelled as `List Char`; every Python string operation
used by the scripts is given a faithful executable counterpart below.
-/

namespace WC

/-- Text content, modelled as a list of characters. -/
abbrev LC := List Char

/-! ## Basic string helpers shared by the script embeddings -/

/-- Membership of a pattern as a contiguous substring, mirroring Python's
`pat in s`.  Checks whether `pat` occurs as `u ++ pat ++ v` inside `cs`. -/
def hasSub (pat : LC) : LC → Bool
  | [] => pat.isPrefixOf []
  | c :: cs => pat.isPrefixOf (c :: cs) || hasSub pat cs

/-- Fuel-driven worker for `pyReplace`; the fuel bounds the number of
characters still to be scanned, so the recursion is structural and the
function evaluates by kernel reduction. -/
def pyRepF : Nat → LC → LC → LC → LC
  | _, cs, [], new => new ++ cs.flatMap (fun c => c :: new)
  | _, [], _ :: _, _ => []
  | 0, c :: cs, _ :: _, _ => c :: cs
  | fuel + 1, c :: cs, o :: os, new =>
    if (o :: os).isPrefixOf (c :: cs) then
      new ++ pyRepF fuel ((c :: cs).drop (o :: os).length) (o :: os) new
    else
      c :: pyRepF fuel cs (o :: os) new

/-- Python's `content.replace(old, new)`: replaces every non-overlapping
occurrence of `old`, scanning left to right.  For an empty `old`, Python
inserts `new` before every character and at the end. -/
def pyReplace (cs old new : LC) : LC := pyRepF cs.length cs old new

theorem pyRepF_congr {n m : Nat} {cs old new : LC}
    (hn : cs.length ≤ n) (hm : cs.length ≤ m) :
    pyRepF n cs old new = pyRepF m cs old new := by
  induction n generalizing m cs with
  | zero =>
    cases old with
    | nil => cases cs <;> cases m <;> rfl
    | cons o os =>
      cases cs with
      | nil => cases m <;> rfl
      | cons c cs => simp at hn
  | succ n ih =>
    cases old with
    | nil => cases cs <;> cases m <;> rfl
    | cons o os =>
      cases cs with
      | nil => cases m <;> rfl
      | cons c cs =>
        cases m with
        | zero => simp at hm
        | succ m =>
          simp only [List.length_cons, Nat.add_le_add_iff_right] at hn hm
          show (if (o :: os).isPrefixOf (c :: cs) then
              new ++ pyRepF n ((c :: cs).drop (o :: os).length) (o :: os) new
            else c :: pyRepF n cs (o :: os) new) =
            (if (o :: os).isPrefixOf (c :: cs) then
              new ++ pyRepF m ((c :: cs).drop (o :: os).length) (o :: os) new
            else c :: pyRepF m cs (o :: os) new)
          by_cases hp : (o :: os).isPrefixOf (c :: cs) = true
          · rw [if_pos hp, if_pos hp]
            congr 1
            have hln : ((c :: cs).drop (o :: os).length).length ≤ n := by
              simp only [List.length_drop, List.length_cons]
              omega
            have hlm : ((c :: cs).drop (o :: os).length).length ≤ m := by
              simp only [List.length_drop, List.length_cons]
              omega
            exact ih hln hlm
          · rw [if_neg hp, if_neg hp, ih hn hm]

theorem pyReplace_old_nil (cs new : LC) :
    pyReplace cs [] new = new ++ cs.flatMap (fun c => c :: new) := by
  cases cs <;> rfl

theorem pyReplace_nil (o : Char) (os new : LC) : pyReplace [] (o :: os) new = [] := rfl

theorem pyReplace_cons (c : Char) (cs : LC) (o : Char) (os new : LC) :
    pyReplace (c :: cs) (o :: os) new =
      if (o :: os).isPrefixOf (c :: cs) then
        new ++ pyReplace ((c :: cs).drop (o :: os).length) (o :: os) new
      else c :: pyReplace cs (o :: os) new := by
  show (if (o :: os).isPrefixOf (c :: cs) then
      new ++ pyRepF cs.length ((c :: cs).drop (o :: os).length) (o :: os) new
    else c :: pyRepF cs.length cs (o :: os) new) = _
  by_cases hp : (o :: os).isPrefixOf (c :: cs) = true
  · rw [if_pos hp, if_pos hp]
    unfold pyReplace
    congr 1
    exact pyRepF_congr
      (by simp only [List.length_drop, List.length_cons]; omega) (le_refl _)
  · rw [if_neg hp, if_neg hp]
    rfl

theorem isPrefixOf_iff_append {pat cs : LC} :
    pat.isPrefixOf cs = true ↔ ∃ t, cs = pat ++ t := by
  induction pat generalizing cs with
  | nil => simp
  | cons p ps ih =>
    cases cs with
    | nil => simp
    | cons c cs =>
      simp only [List.isPrefixOf_cons₂, Bool.and_eq_true, beq_iff_eq, ih,
        List.cons_append, List.cons.injEq]
      constructor
      · rintro ⟨rfl, t, rfl⟩; exact ⟨t, rfl, rfl⟩
      · rintro ⟨t, rfl, rfl⟩; exact ⟨rfl, t, rfl⟩

theorem hasSub_iff_parts {pat cs : LC} :
    hasSub pat cs = true ↔ ∃ u v, cs = u ++ pat ++ v := by
  induction cs with
  | nil =>
    simp only [hasSub, isPrefixOf_iff_append]
    constructor
    · rintro ⟨t, ht⟩
      exact ⟨[], t, by simpa using ht⟩
    · rintro ⟨u, v, huv⟩
      have hu : u = [] := by
        cases u with
        | nil => rfl
        | cons a as => simp at huv
      subst hu
      exact ⟨v, by simpa using huv⟩
  | cons c cs ih =>
    simp only [hasSub, Bool.or_eq_true, isPrefixOf_iff_append, ih]
    constructor
    · rintro (⟨t, ht⟩ | ⟨u, v, huv⟩)
      · exact ⟨[], t, by simpa using ht⟩
      · exact ⟨c :: u, v, by simp [huv]⟩
    · rintro ⟨u, v, huv⟩
      cases u with
      | nil => exact Or.inl ⟨v, by simpa using huv⟩
      | cons a as =>
        simp only [List.cons_append, List.cons.injEq] at huv
        exact Or.inr ⟨as, v, huv.2⟩

theorem hasSub_of_parts {pat u v : LC} : hasSub pat (u ++ pat ++ v) = true :=
  hasSub_iff_parts.mpr ⟨u, v, rfl⟩

/-! ## Embeddings of the repository's scripts

Each definition below is the content transformation performed by the named
Python function, with file I/O stripped away: it maps the text read from
the target file to the text written back. -/

/-- Content transformation of `fix_cross_model_memory` in
`fix_cross_model_memory.py`: a single literal `str.replace` adding
`PartialEq` to the derive attribute of `MemoryType`. -/
def fix_cross_model_memory (content : LC) : LC :=
  pyReplace content
    ("#[derive(Debug, Clone, Serialize, Deserialize)]\npub enum MemoryType \x7b").toList
    ("#[derive(Debug, Clone, Serialize, Deserialize, PartialEq)]\npub enum MemoryType \x7b").toList

/-- Content transformation performed by line 72 of `fix_final_errors.py`
(function `fix_cross_model_memory_borrowing`): the underscore-prefixing
replacement `content.replace("target_model: String,", "_target_model: String,")`. -/
def fix_final_target_model_step (content : LC) : LC :=
  pyReplace content ("target_model: String,").toList ("_target_model: String,").toList

/-- Content transformation of `register_error_detection_commands` in
`register_error_detection.py`: two literal `str.replace` steps, one adding
an import line and one extending the invoke-handler section. -/
def register_error_detection_commands (content : LC) : LC :=
  let importLine :=
    ("use commands::error_tracker::\x7btrack_error, record_error, get_error, list_errors, resolve_error, get_error_stats, get_error_metrics, search_errors\x7d;").toList
  let newImportLine :=
    importLine ++ ("\nuse commands::error_detection_system::\x7binitialize_error_detection_system, detect_error_in_message, get_error_detection_status\x7d;").toList
  let oldSection :=
    ("            // Error Tracking System\n            track_error,\n            record_error,\n            get_error,\n            list_errors,\n            resolve_error,\n            get_error_stats,\n            get_error_metrics,\n            search_errors,").toList
  let newSection :=
    ("            // Error Tracking System\n            track_error,\n            record_error,\n            get_error,\n            list_errors,\n            resolve_error,\n            get_error_stats,\n            get_error_metrics,\n            search_errors,\n            \n            // Error Detection System\n            initialize_error_detection_system,\n            detect_error_in_message,\n            get_error_detection_status,").toList
  pyReplace (pyReplace content importLine newImportLine) oldSection newSection

/-! ## The spec-modelled Transform apply operation

The patch application engine itself is not part of the repository's source
files; the scripts only reimplement it informally.  The definitions below
are therefore modelled from the specification. -/

/-- Modelled from the spec: the outcome taxonomy of an ApplyResult
(section 3 of the specification). -/
inductive Outcome
  | applied
  | alreadyApplied
  | notFound
  | ambiguousMatch
  | error
deriving DecidableEq

/-- Number of positions of `cs` at which the literal pattern `pat` occurs
(all start positions, used by the Matcher to detect ambiguity). -/
def countOcc (pat cs : LC) : Nat :=
  ((List.range (cs.length + 1)).filter (fun i => pat.isPrefixOf (cs.drop i))).length

/-- Splits `cs` around the first occurrence of `pat`: returns the text
before and after the matched span. -/
def splitFirst (pat : LC) : LC → Option (LC × LC)
  | [] => if pat.isPrefixOf [] then some ([], []) else none
  | c :: cs =>
    if pat.isPrefixOf (c :: cs) then some ([], (c :: cs).drop pat.length)
    else (splitFirst pat cs).map (fun pr => (c :: pr.1, pr.2))

/-- Modelled from the spec: a Transform (section 3), a single named unit of
work.  The matcher spec is a literal pattern; regex-kind transforms appear
at PatchSet construction time (`RawTransform` below), where only their
compile-failure behaviour is specified.  `useAll` is the explicit
"replace all" opt-in; `icheck` is the idempotency predicate. -/
structure Transform where
  tid : LC
  targetPath : LC
  pattern : LC
  replacement : LC
  useAll : Bool
  icheck : LC → Bool

/-- The standard idempotency check intended by the spec's design: the
intended change is already present when the replacement text occurs in the
current file text. -/
def stdCheck (rep : LC) (text : LC) : Bool := hasSub rep text

/-- Modelled from the spec: `Transform.apply` (section 4.2).  First
evaluates the idempotency check; otherwise invokes the Matcher:
no match reports `NotFound`, an ambiguous match reports `AmbiguousMatch`
without mutation, a unique match (or any match under replace-all)
substitutes the replacement and reports `Applied`. -/
def applyT (t : Transform) (cur : LC) : LC × Outcome :=
  if t.icheck cur then (cur, .alreadyApplied)
  else if countOcc t.pattern cur = 0 then (cur, .notFound)
  else if t.useAll then (pyReplace cur t.pattern t.replacement, .applied)
  else if countOcc t.pattern cur = 1 then
    match splitFirst t.pattern cur with
    | some pr => (pr.1 ++ t.replacement ++ pr.2, .applied)
    | none => (cur, .notFound)
  else (cur, .ambiguousMatch)

theorem countOcc_pos_iff {pat cs : LC} :
    1 ≤ countOcc pat cs ↔ ∃ u v, cs = u ++ pat ++ v := by
  unfold countOcc
  constructor
  · intro h
    obtain ⟨i, hi⟩ := List.exists_mem_of_length_pos h
    obtain ⟨-, hp⟩ := List.mem_filter.mp hi
    obtain ⟨t, ht⟩ := isPrefixOf_iff_append.mp hp
    refine ⟨cs.take i, t, ?_⟩
    rw [List.append_assoc, ← ht, List.take_append_drop]
  · rintro ⟨u, v, rfl⟩
    have hp : pat.isPrefixOf (((u ++ pat ++ v)).drop u.length) = true := by
      rw [List.append_assoc, List.drop_left]
      exact isPrefixOf_iff_append.mpr ⟨v, rfl⟩
    have hmem : u.length ∈
        (List.range ((u ++ pat ++ v).length + 1)).filter
          (fun i => pat.isPrefixOf ((u ++ pat ++ v).drop i)) := by
      refine List.mem_filter.mpr ⟨List.mem_range.mpr ?_, hp⟩
      simp only [List.length_append]
      omega
    exact List.length_pos.mpr (List.ne_nil_of_mem hmem)

theorem splitFirst_eq_parts {pat cs u v : LC}
    (h : splitFirst pat cs = some (u, v)) : cs = u ++ pat ++ v := by
  induction cs generalizing u v with
  | nil =>
    unfold splitFirst at h
    by_cases hp : pat.isPrefixOf ([] : LC) = true
    · rw [if_pos hp] at h
      obtain ⟨t, ht⟩ := isPrefixOf_iff_append.mp hp
      cases h
      have hpt : pat = [] ∧ t = [] := by simpa using ht.symm
      simp [hpt.1]
    · rw [if_neg hp] at h
      cases h
  | cons c cs ih =>
    unfold splitFirst at h
    by_cases hp : pat.isPrefixOf (c :: cs) = true
    · rw [if_pos hp] at h
      obtain ⟨t, ht⟩ := isPrefixOf_iff_append.mp hp
      cases h
      rw [ht, List.nil_append, List.drop_left]
    · rw [if_neg hp] at h
      cases hs : splitFirst pat cs with
      | none => rw [hs] at h; cases h
      | some pr =>
        rw [hs] at h
        cases h
        have := ih (u := pr.1) (v := pr.2) (by rw [hs])
        simp [this]

theorem splitFirst_isSome {pat cs u v : LC} (h : cs = u ++ pat ++ v) :
    ∃ pr, splitFirst pat cs = some pr := by
  induction cs generalizing u with
  | nil =>
    have hp : pat.isPrefixOf ([] : LC) = true := by
      have hu : u = [] := by cases u with
        | nil => rfl
        | cons a as => simp at h
      subst hu
      simp only [List.nil_append] at h
      exact isPrefixOf_iff_append.mpr ⟨v, h⟩
    exact ⟨([], []), by unfold splitFirst; rw [if_pos hp]⟩
  | cons c cs ih =>
    by_cases hp : pat.isPrefixOf (c :: cs) = true
    · exact ⟨([], (c :: cs).drop pat.length), by unfold splitFirst; rw [if_pos hp]⟩
    · cases u with
      | nil =>
        exact absurd (isPrefixOf_iff_append.mpr ⟨v, by simpa using h⟩) hp
      | cons a as =>
        simp only [List.cons_append, List.cons.injEq] at h
        obtain ⟨pr, hpr⟩ := ih h.2
        exact ⟨(c :: pr.1, pr.2), by
          unfold splitFirst
          rw [if_neg hp, hpr]
          rfl⟩

theorem pyReplace_contains_new {cs old new u v : LC} (h : cs = u ++ old ++ v) :
    ∃ u' v', pyReplace cs old new = u' ++ new ++ v' := by
  cases old with
  | nil =>
    refine ⟨[], cs.flatMap (fun c => c :: new), ?_⟩
    simp [pyReplace_old_nil]
  | cons o os =>
    induction cs generalizing u with
    | nil =>
      exfalso
      have hl := congrArg List.length h
      simp only [List.length_nil, List.length_append, List.length_cons] at hl
      omega
    | cons c cs ih =>
      by_cases hp : (o :: os).isPrefixOf (c :: cs) = true
      · refine ⟨[], pyReplace ((c :: cs).drop (o :: os).length) (o :: os) new, ?_⟩
        rw [pyReplace_cons, if_pos hp]
        simp
      · cases u with
        | nil =>
          exact absurd (isPrefixOf_iff_append.mpr ⟨v, by simpa using h⟩) hp
        | cons a as =>
          simp only [List.cons_append, List.cons.injEq] at h
          obtain ⟨u', v', hr⟩ := ih h.2
          refine ⟨c :: u', v', ?_⟩
          rw [pyReplace_cons, if_neg hp, hr]
          simp

theorem applyT_of_icheck {t : Transform} {c : LC} (h : t.icheck c = true) :
    applyT t c = (c, .alreadyApplied) := by
  simp [applyT, h]

theorem applyT_icheck_of_alreadyApplied {t : Transform} {c : LC}
    (h : (applyT t c).2 = .alreadyApplied) : t.icheck c = true := by
  by_contra hic
  rw [Bool.not_eq_true] at hic
  by_cases h0 : countOcc t.pattern c = 0
  · simp [applyT, hic, h0] at h
  · by_cases ha : t.useAll = true
    · simp [applyT, hic, h0, ha] at h
    · rw [Bool.not_eq_true] at ha
      by_cases h1 : countOcc t.pattern c = 1
      · cases hs : splitFirst t.pattern c with
        | some pr => simp [applyT, hic, h0, ha, h1, hs] at h
        | none => simp [applyT, hic, h0, ha, h1, hs] at h
      · simp [applyT, hic, h0, ha, h1] at h

theorem applyT_applied_parts {t : Transform} {c : LC}
    (h : (applyT t c).2 = .applied) :
    ∃ u v, (applyT t c).1 = u ++ t.replacement ++ v := by
  by_cases hic : t.icheck c = true
  · rw [applyT_of_icheck hic] at h
    simp at h
  · rw [Bool.not_eq_true] at hic
    by_cases h0 : countOcc t.pattern c = 0
    · simp [applyT, hic, h0] at h
    · by_cases ha : t.useAll = true
      · have hpos : 1 ≤ countOcc t.pattern c := Nat.one_le_iff_ne_zero.mpr h0
        obtain ⟨u, v, huv⟩ := countOcc_pos_iff.mp hpos
        obtain ⟨u', v', hr⟩ :=
          @pyReplace_contains_new c t.pattern t.replacement u v huv
        refine ⟨u', v', ?_⟩
        simp [applyT, hic, h0, ha, hr]
      · rw [Bool.not_eq_true] at ha
        by_cases h1 : countOcc t.pattern c = 1
        · have hpos : 1 ≤ countOcc t.pattern c := Nat.one_le_iff_ne_zero.mpr h0
          obtain ⟨u, v, huv⟩ := countOcc_pos_iff.mp hpos
          obtain ⟨pr, hpr⟩ := splitFirst_isSome huv
          refine ⟨pr.1, pr.2, ?_⟩
          simp [applyT, hic, h0, ha, h1, hpr]
        · simp [applyT, hic, h0, ha, h1] at h

/-- A sample literal Transform (pattern `ab`, replacement `xy`, standard
idempotency check, no replace-all) used to instantiate the engine claims
on concrete inputs. -/
def sampleT : Transform :=
  ⟨("t1").toList, ("main.rs").toList, ("ab").toList, ("xy").toList,
    false, stdCheck (("xy").toList)⟩

/-- C1 (amended): for a Transform whose idempotency check is the standard
replacement-present check, whenever the first application succeeds (outcome
`Applied`, or already `AlreadyApplied`), re-applying the Transform to the
produced text yields `AlreadyApplied` with the text unchanged.  The
original claim's universal form — a second application yields
`AlreadyApplied` for every file content, and every script's replacement
logic is a fixpoint after one application — is refuted by
`c1_counterexample`. -/
theorem c1_reapply_alreadyApplied (t : Transform) (c : LC)
    (hic : t.icheck = stdCheck t.replacement)
    (h : (applyT t c).2 = .applied ∨ (applyT t c).2 = .alreadyApplied) :
    applyT t (applyT t c).1 = ((applyT t c).1, .alreadyApplied) := by
  rcases h with h | h
  · obtain ⟨u, v, huv⟩ := applyT_applied_parts h
    have hchk : t.icheck ((applyT t c).1) = true := by
      rw [hic, huv]
      exact hasSub_of_parts
    exact applyT_of_icheck hchk
  · have hi := applyT_icheck_of_alreadyApplied h
    have h1 : (applyT t c).1 = c := by rw [applyT_of_icheck hi]
    rw [h1]
    exact applyT_of_icheck hi

/-- C1 witness: the amended idempotence property instantiated on a
concrete Transform and content, with both hypotheses discharged. -/
theorem c1_witness :
    sampleT.icheck = stdCheck sampleT.replacement ∧
    ((applyT sampleT (("zabz").toList)).2 = Outcome.applied ∨
      (applyT sampleT (("zabz").toList)).2 = Outcome.alreadyApplied) ∧
    applyT sampleT ((applyT sampleT (("zabz").toList)).1) =
      ((applyT sampleT (("zabz").toList)).1, Outcome.alreadyApplied) :=
  ⟨rfl, Or.inl (by decide),
    c1_reapply_alreadyApplied sampleT (("zabz").toList) rfl (Or.inl (by decide))⟩

/-- C1 counterexample: the claim as stated is false.  The underscore
prefixing replacement of `fix_final_errors.py` line 72 is not a fixpoint
after one application (its replacement text contains its own pattern, so a
second run produces a doubled underscore), and the spec-modelled apply
yields `NotFound`, not `AlreadyApplied`, when re-run on content that never
contained the pattern. -/
theorem c1_counterexample :
    fix_final_target_model_step
        (fix_final_target_model_step (("target_model: String,").toList)) ≠
      fix_final_target_model_step (("target_model: String,").toList) ∧
    (applyT sampleT ((applyT sampleT (("zz").toList)).1)).2 ≠
      Outcome.alreadyApplied := by
  exact ⟨by decide, by decide⟩

/-- C2 (amended): if a Transform has not opted into replace-all, its
idempotency check does not hold on the content, and its literal pattern
occurs two or more times, then apply returns `AmbiguousMatch` and the
content is left unmodified.  The original claim, which omits the
idempotency-check hypothesis, is refuted by `c2_counterexample`. -/
theorem c2_ambiguous_unchanged (t : Transform) (c : LC)
    (hall : t.useAll = false) (hic : t.icheck c = false)
    (h2 : 2 ≤ countOcc t.pattern c) :
    applyT t c = (c, .ambiguousMatch) := by
  have h0 : ¬ countOcc t.pattern c = 0 := by omega
  have h1 : ¬ countOcc t.pattern c = 1 := by omega
  simp [applyT, hall, hic, h0, h1]

/-- C2 witness: ambiguity on a concrete content with two occurrences of
the pattern and a failing idempotency check. -/
theorem c2_witness :
    sampleT.useAll = false ∧
    sampleT.icheck (("abzab").toList) = false ∧
    2 ≤ countOcc sampleT.pattern (("abzab").toList) ∧
    applyT sampleT (("abzab").toList) = ((("abzab").toList), Outcome.ambiguousMatch) :=
  ⟨rfl, by decide, by decide,
    c2_ambiguous_unchanged sampleT (("abzab").toList) rfl (by decide) (by decide)⟩

/-- C2 counterexample: on content where the pattern occurs twice but the
idempotency check already holds (the replacement text is present), the
spec's apply — which evaluates the idempotency check first — returns
`AlreadyApplied`, not `AmbiguousMatch`. -/
theorem c2_counterexample :
    sampleT.useAll = false ∧
    2 ≤ countOcc sampleT.pattern (("abxyab").toList) ∧
    applyT sampleT (("abxyab").toList) ≠ ((("abxyab").toList), Outcome.ambiguousMatch) ∧
    applyT sampleT (("abxyab").toList) = ((("abxyab").toList), Outcome.alreadyApplied) :=
  ⟨rfl, by decide, by decide, by decide⟩

/-- C3 (amended): if the content does not contain the Transform's literal
pattern and the Transform's idempotency check does not hold on it, apply
returns the observable outcome `NotFound` with the text byte-for-byte
unchanged.  The original claim, which omits the idempotency-check
hypothesis, is refuted by `c3_counterexample`. -/
theorem c3_notFound_unchanged (t : Transform) (c : LC)
    (hic : t.icheck c = false) (h0 : countOcc t.pattern c = 0) :
    applyT t c = (c, .notFound) := by
  simp [applyT, hic, h0]

/-- C3 witness: `NotFound` with unchanged text on a concrete content that
contains neither the pattern nor the replacement. -/
theorem c3_witness :
    sampleT.icheck (("zz").toList) = false ∧
    countOcc sampleT.pattern (("zz").toList) = 0 ∧
    applyT sampleT (("zz").toList) = ((("zz").toList), Outcome.notFound) :=
  ⟨by decide, by decide,
    c3_notFound_unchanged sampleT (("zz").toList) (by decide) (by decide)⟩

/-- C3 counterexample: on content that does not contain the pattern but
already contains the replacement, the spec's apply returns
`AlreadyApplied`, not `NotFound`. -/
theorem c3_counterexample :
    countOcc sampleT.pattern (("xy").toList) = 0 ∧
    applyT sampleT (("xy").toList) ≠ ((("xy").toList), Outcome.notFound) ∧
    applyT sampleT (("xy").toList) = ((("xy").toList), Outcome.alreadyApplied) :=
  ⟨by decide, by decide, by decide⟩

/-! ## The spec-modelled Engine run (FileSessions, write minimization,
error isolation) -/

/-- Modelled from the spec: the filesystem interface (section 6), an
association list from target paths to file contents.  Reading a path
absent from the list fails (missing file). -/
abbrev FS := List (LC × LC)

/-- Reads a target file; `none` models a read failure. -/
def fsRead (fs : FS) (p : LC) : Option LC :=
  (fs.find? (fun e => e.1 == p)).map (fun e => e.2)

/-- Modelled from the spec: a FileSession (section 3) — the text first
read for the session together with the current in-memory text — or the
record that reading the file failed. -/
inductive Session
  | ok (orig cur : LC)
  | failed
deriving DecidableEq

/-- Keys of a session map. -/
def keysS (ss : List (LC × Session)) : List LC := ss.map (fun e => e.1)

/-- Looks up the session opened for a path, if any. -/
def lookupS (ss : List (LC × Session)) (p : LC) : Option Session :=
  (ss.find? (fun e => e.1 == p)).map (fun e => e.2)

/-- Replaces the session stored for a path. -/
def updateS (ss : List (LC × Session)) (p : LC) (s : Session) :
    List (LC × Session) :=
  ss.map (fun e => if e.1 == p then (e.1, s) else e)

/-- Modelled from the spec: one Engine step (section 4.4) — applies one
Transform against its target's session, lazily opening the session
(reading the file once) on first access; a read failure records a failed
session and surfaces an `Error` outcome. -/
def stepT (fs : FS) (ss : List (LC × Session)) (t : Transform) :
    List (LC × Session) × Outcome :=
  match lookupS ss t.targetPath with
  | some (.ok o c) =>
    (updateS ss t.targetPath (.ok o (applyT t c).1), (applyT t c).2)
  | some .failed => (ss, .error)
  | none =>
    match fsRead fs t.targetPath with
    | some txt =>
      ((t.targetPath, .ok txt (applyT t txt).1) :: ss, (applyT t txt).2)
    | none => ((t.targetPath, .failed) :: ss, .error)

/-- Modelled from the spec: the Engine's main loop — applies the
Transforms in the resolved order, threading the session map and collecting
one outcome per Transform. -/
def runT (fs : FS) : List Transform → List (LC × Session) →
    List (LC × Session) × List (Transform × Outcome)
  | [], ss => (ss, [])
  | t :: ts, ss =>
    ((runT fs ts (stepT fs ss t).1).1,
      (t, (stepT fs ss t).2) :: (runT fs ts (stepT fs ss t).1).2)

/-- Final session map of an Engine run started with no open sessions. -/
def sessionsOf (fs : FS) (ts : List Transform) : List (LC × Session) :=
  (runT fs ts []).1

/-- Per-Transform outcomes of an Engine run, in resolved order. -/
def traceOf (fs : FS) (ts : List Transform) : List (Transform × Outcome) :=
  (runT fs ts []).2

/-- Modelled from the spec: write minimization (section 4.4) — the paths
whose final session text differs from the text first read; only these are
written back. -/
def writtenPaths (fs : FS) (ts : List Transform) : List LC :=
  (sessionsOf fs ts).filterMap (fun e =>
    match e.2 with
    | .ok o c => if c ≠ o then some e.1 else none
    | .failed => none)

theorem lookupS_cons (p q : LC) (s : Session) (ss : List (LC × Session)) :
    lookupS ((p, s) :: ss) q = if p == q then some s else lookupS ss q := by
  unfold lookupS
  rw [List.find?_cons]
  by_cases h : (p == q) = true <;> simp [h]

theorem keysS_updateS (ss : List (LC × Session)) (p : LC) (s : Session) :
    keysS (updateS ss p s) = keysS ss := by
  unfold keysS updateS
  rw [List.map_map]
  refine List.map_congr_left ?_
  intro e _
  show (if e.1 == p then (e.1, s) else e).1 = e.1
  by_cases h : (e.1 == p) = true
  · rw [if_pos h]
  · rw [if_neg h]

theorem updateS_cons (k : LC) (v : Session) (ss : List (LC × Session))
    (p : LC) (s : Session) :
    updateS ((k, v) :: ss) p s =
      (if k == p then (k, s) else (k, v)) :: updateS ss p s := rfl

theorem lookupS_updateS_self (ss : List (LC × Session)) (p : LC) (s : Session) :
    lookupS (updateS ss p s) p = (lookupS ss p).map (fun _ => s) := by
  induction ss with
  | nil => rfl
  | cons e ss ih =>
    cases e with
    | mk k v =>
      rw [updateS_cons]
      by_cases hk : (k == p) = true
      · rw [if_pos hk, lookupS_cons, lookupS_cons, if_pos hk, if_pos hk]
        rfl
      · rw [if_neg hk, lookupS_cons, lookupS_cons, if_neg hk, if_neg hk, ih]

theorem lookupS_updateS_ne (ss : List (LC × Session)) {p q : LC} (s : Session)
    (h : p ≠ q) : lookupS (updateS ss p s) q = lookupS ss q := by
  induction ss with
  | nil => rfl
  | cons e ss ih =>
    cases e with
    | mk k v =>
      rw [updateS_cons]
      by_cases hk : (k == p) = true
      · have hkp : k = p := by simpa using hk
        have hq : ¬ (k == q) = true := by
          simp only [beq_iff_eq]
          rw [hkp]
          exact h
        rw [if_pos hk, lookupS_cons, lookupS_cons, if_neg hq, if_neg hq, ih]
      · rw [if_neg hk, lookupS_cons, lookupS_cons]
        by_cases hq : (k == q) = true
        · rw [if_pos hq, if_pos hq]
        · rw [if_neg hq, if_neg hq, ih]

theorem not_mem_keysS_of_lookupS_none {ss : List (LC × Session)} {p : LC}
    (h : lookupS ss p = none) : p ∉ keysS ss := by
  induction ss with
  | nil => simp [keysS]
  | cons e ss ih =>
    cases e with
    | mk k v =>
      rw [lookupS_cons] at h
      by_cases hk : (k == p) = true
      · rw [if_pos hk] at h
        cases h
      · rw [if_neg hk] at h
        have hne : k ≠ p := by simpa using hk
        simp only [keysS, List.map_cons, List.mem_cons]
        rintro (rfl | hm)
        · exact hne rfl
        · exact ih h hm

theorem lookupS_of_mem {ss : List (LC × Session)} {p : LC} {s : Session}
    (nd : (keysS ss).Nodup) (hm : (p, s) ∈ ss) : lookupS ss p = some s := by
  induction ss with
  | nil => cases hm
  | cons e ss ih =>
    cases e with
    | mk k v =>
      rw [List.mem_cons] at hm
      simp only [keysS, List.map_cons, List.nodup_cons] at nd
      rcases hm with he | hm
      · cases he
        rw [lookupS_cons, if_pos (by simp)]
      · have hk : k ≠ p := by
          intro hkp
          exact nd.1 (hkp ▸ List.mem_map.mpr ⟨(p, s), hm, rfl⟩)
        rw [lookupS_cons, if_neg (by simpa using hk)]
        exact ih nd.2 hm

theorem mem_of_lookupS {ss : List (LC × Session)} {p : LC} {s : Session}
    (h : lookupS ss p = some s) : (p, s) ∈ ss := by
  unfold lookupS at h
  cases hf : ss.find? (fun e => e.1 == p) with
  | none => rw [hf] at h; cases h
  | some e =>
    rw [hf] at h
    have hmem := List.mem_of_find?_eq_some hf
    have hpred := List.find?_some hf
    have hp : e.1 = p := by simpa using hpred
    have hs : e.2 = s := by simpa using h
    cases e with
    | mk k v =>
      simp only at hp hs
      rw [← hp, ← hs]
      exact hmem

theorem nodup_keysS_stepT (fs : FS) {ss : List (LC × Session)} (t : Transform)
    (nd : (keysS ss).Nodup) : (keysS (stepT fs ss t).1).Nodup := by
  unfold stepT
  cases hl : lookupS ss t.targetPath with
  | some s =>
    cases s with
    | ok o c => simpa [keysS_updateS] using nd
    | failed => exact nd
  | none =>
    have hnm := not_mem_keysS_of_lookupS_none hl
    cases hr : fsRead fs t.targetPath with
    | some txt => exact List.Nodup.cons hnm nd
    | none => exact List.Nodup.cons hnm nd

theorem nodup_keysS_runT (fs : FS) (ts : List Transform)
    {ss : List (LC × Session)} (nd : (keysS ss).Nodup) :
    (keysS (runT fs ts ss).1).Nodup := by
  induction ts generalizing ss with
  | nil => exact nd
  | cons t ts ih => exact ih (nodup_keysS_stepT fs t nd)

theorem applyT_fst_of_ne_applied {t : Transform} {c : LC}
    (h : (applyT t c).2 ≠ .applied) : (applyT t c).1 = c := by
  by_cases hic : t.icheck c = true
  · rw [applyT_of_icheck hic]
  · rw [Bool.not_eq_true] at hic
    by_cases h0 : countOcc t.pattern c = 0
    · simp [applyT, hic, h0]
    · by_cases ha : t.useAll = true
      · exact absurd (by simp [applyT, hic, h0, ha]) h
      · rw [Bool.not_eq_true] at ha
        by_cases h1 : countOcc t.pattern c = 1
        · cases hs : splitFirst t.pattern c with
          | some pr => exact absurd (by simp [applyT, hic, h0, ha, h1, hs]) h
          | none => simp [applyT, hic, h0, ha, h1, hs]
        · simp [applyT, hic, h0, ha, h1]

theorem stepT_cases (fs : FS) (ss : List (LC × Session)) (t : Transform) :
    (∃ o0 c0, lookupS ss t.targetPath = some (.ok o0 c0) ∧
      stepT fs ss t =
        (updateS ss t.targetPath (.ok o0 (applyT t c0).1), (applyT t c0).2)) ∨
    (lookupS ss t.targetPath = some .failed ∧ stepT fs ss t = (ss, .error)) ∨
    (lookupS ss t.targetPath = none ∧
      ∃ txt, fsRead fs t.targetPath = some txt ∧
        stepT fs ss t =
          ((t.targetPath, .ok txt (applyT t txt).1) :: ss, (applyT t txt).2)) ∨
    (lookupS ss t.targetPath = none ∧ fsRead fs t.targetPath = none ∧
      stepT fs ss t = ((t.targetPath, .failed) :: ss, .error)) := by
  unfold stepT
  cases hl : lookupS ss t.targetPath with
  | some s =>
    cases s with
    | ok o c => exact Or.inl ⟨o, c, rfl, rfl⟩
    | failed => exact Or.inr (Or.inl ⟨rfl, rfl⟩)
  | none =>
    cases hr : fsRead fs t.targetPath with
    | some txt => exact Or.inr (Or.inr (Or.inl ⟨rfl, txt, rfl, rfl⟩))
    | none => exact Or.inr (Or.inr (Or.inr ⟨rfl, rfl, rfl⟩))

theorem lookupS_stepT_ne (fs : FS) (ss : List (LC × Session)) (t : Transform)
    {q : LC} (hne : t.targetPath ≠ q) :
    lookupS (stepT fs ss t).1 q = lookupS ss q := by
  rcases stepT_cases fs ss t with ⟨o0, c0, hl, hst⟩ | ⟨hl, hst⟩ |
    ⟨hl, txt, hr, hst⟩ | ⟨hl, hr, hst⟩
  · rw [hst]
    exact lookupS_updateS_ne ss _ hne
  · rw [hst]
  · rw [hst, lookupS_cons, if_neg (by simpa using hne)]
  · rw [hst, lookupS_cons, if_neg (by simpa using hne)]

theorem mem_writtenPaths_iff (fs : FS) (ts : List Transform) (p : LC) :
    p ∈ writtenPaths fs ts ↔
      ∃ o c, lookupS (sessionsOf fs ts) p = some (.ok o c) ∧ c ≠ o := by
  have nd : (keysS (sessionsOf fs ts)).Nodup :=
    nodup_keysS_runT fs ts (by simp [keysS])
  unfold writtenPaths
  rw [List.mem_filterMap]
  constructor
  · rintro ⟨e, hmem, hsome⟩
    cases e with
    | mk k v =>
      cases v with
      | ok o c =>
        by_cases hne : c ≠ o
        · simp only [if_pos hne, Option.some.injEq] at hsome
          exact ⟨o, c, lookupS_of_mem nd (hsome ▸ hmem), hne⟩
        · simp [hne] at hsome
      | failed => simp at hsome
  · rintro ⟨o, c, hl, hne⟩
    exact ⟨(p, .ok o c), mem_of_lookupS hl, by simp [hne]⟩

theorem runT_preserves_clean (fs : FS) (p : LC) :
    ∀ (ts : List Transform) (ss : List (LC × Session)),
      (∀ t o, (t, o) ∈ (runT fs ts ss).2 → t.targetPath = p →
        o = Outcome.alreadyApplied ∨ o = Outcome.notFound) →
      (∀ o c, lookupS ss p = some (.ok o c) → o = c) →
      ∀ o c, lookupS (runT fs ts ss).1 p = some (.ok o c) → o = c := by
  intro ts
  induction ts with
  | nil =>
    intro ss _ hinv
    exact hinv
  | cons t ts ih =>
    intro ss htr hinv
    have htr' : ∀ t' o, (t', o) ∈ (runT fs ts (stepT fs ss t).1).2 →
        t'.targetPath = p → o = Outcome.alreadyApplied ∨ o = Outcome.notFound := by
      intro t' o hm hp
      exact htr t' o (List.mem_cons_of_mem _ hm) hp
    refine ih (stepT fs ss t).1 htr' ?_
    by_cases hpq : t.targetPath = p
    · have hout : (stepT fs ss t).2 = Outcome.alreadyApplied ∨
          (stepT fs ss t).2 = Outcome.notFound :=
        htr t (stepT fs ss t).2 (List.mem_cons_self _ _) hpq
      rcases stepT_cases fs ss t with ⟨o0, c0, hl, hst⟩ | ⟨hl, hst⟩ |
        ⟨hl, txt, hr, hst⟩ | ⟨hl, hr, hst⟩
      · have ho0 : o0 = c0 := hinv o0 c0 (hpq ▸ hl)
        rw [hst] at hout
        have hne : (applyT t c0).2 ≠ Outcome.applied := by
          rcases hout with h | h <;> rw [h] <;> intro hc <;> cases hc
        have hfst := applyT_fst_of_ne_applied hne
        intro o c hlook
        have hl' := hl
        rw [hpq] at hl'
        rw [hst] at hlook
        rw [hpq, lookupS_updateS_self, hl'] at hlook
        have hlook' : Session.ok o0 (applyT t c0).1 = Session.ok o c := by
          simpa using hlook
        cases hlook'
        rw [hfst, ho0]
      · rw [hst] at hout
        rcases hout with h | h <;> simp at h
      · rw [hst] at hout
        have hne : (applyT t txt).2 ≠ Outcome.applied := by
          rcases hout with h | h <;> rw [h] <;> intro hc <;> cases hc
        have hfst := applyT_fst_of_ne_applied hne
        intro o c hlook
        rw [hst, lookupS_cons, if_pos (by simpa using hpq)] at hlook
        simp only [Option.some.injEq] at hlook
        cases hlook
        rw [hfst]
      · rw [hst] at hout
        rcases hout with h | h <;> simp at h
    · intro o c hlook
      rw [lookupS_stepT_ne fs ss t hpq] at hlook
      exact hinv o c hlook

/-- C4: Write minimization — a target file is written back exactly when
its final in-memory session text differs from the text first read, and in
particular when every Transform scoped to the file resolves to
`AlreadyApplied` or `NotFound` the file is not written back. -/
theorem c4_write_minimization (fs : FS) (ts : List Transform) (p : LC) :
    (p ∈ writtenPaths fs ts ↔
      ∃ o c, lookupS (sessionsOf fs ts) p = some (.ok o c) ∧ c ≠ o) ∧
    ((∀ t o, (t, o) ∈ traceOf fs ts → t.targetPath = p →
        o = Outcome.alreadyApplied ∨ o = Outcome.notFound) →
      p ∉ writtenPaths fs ts) := by
  refine ⟨mem_writtenPaths_iff fs ts p, ?_⟩
  intro hall hmem
  obtain ⟨o, c, hl, hne⟩ := (mem_writtenPaths_iff fs ts p).mp hmem
  have hoc := runT_preserves_clean fs p ts [] hall
    (by intro o c h; simp [lookupS] at h) o c hl
  exact hne hoc.symm

/-- A concrete single-file filesystem for instantiating the Engine
claims. -/
def c4fs : FS := [((("a.rs").toList), (("abz").toList))]

/-- A concrete Transform targeting `a.rs` whose pattern occurs once. -/
def c4t : Transform :=
  ⟨("w1").toList, ("a.rs").toList, ("ab").toList, ("xy").toList,
    false, stdCheck (("xy").toList)⟩

/-- C4 witness: on the concrete run, the target is written back exactly
because its final text differs from the text first read. -/
theorem c4_witness : (("a.rs").toList) ∈ writtenPaths c4fs [c4t] :=
  (c4_write_minimization c4fs [c4t] (("a.rs").toList)).1.mpr
    ⟨("abz").toList, ("xyz").toList, by decide, by decide⟩

/-- Modelled from the spec: the evolution of one file's session under only
the Transforms scoped to it — the reference behaviour witnessing that
failures on other files do not affect this file. -/
def fileRun (fs : FS) (q : LC) : List Transform → Option Session → Option Session
  | [], s => s
  | t :: ts, s =>
    fileRun fs q ts
      (match s with
       | none =>
         match fsRead fs q with
         | some txt => some (.ok txt (applyT t txt).1)
         | none => some .failed
       | some (.ok o c) => some (.ok o (applyT t c).1)
       | some .failed => some .failed)

theorem lookupS_stepT_self (fs : FS) (ss : List (LC × Session)) (t : Transform) :
    lookupS (stepT fs ss t).1 t.targetPath =
      match lookupS ss t.targetPath with
      | none =>
        match fsRead fs t.targetPath with
        | some txt => some (.ok txt (applyT t txt).1)
        | none => some .failed
      | some (.ok o c) => some (.ok o (applyT t c).1)
      | some .failed => some .failed := by
  rcases stepT_cases fs ss t with ⟨o0, c0, hl, hst⟩ | ⟨hl, hst⟩ |
    ⟨hl, txt, hr, hst⟩ | ⟨hl, hr, hst⟩
  · rw [hst, hl, lookupS_updateS_self, hl]
    rfl
  · rw [hst, hl]
  · rw [hst, lookupS_cons, if_pos (by simp), hl, hr]
  · rw [hst, lookupS_cons, if_pos (by simp), hl, hr]

theorem runT_file_frame (fs : FS) (q : LC) :
    ∀ (ts : List Transform) (ss : List (LC × Session)),
      lookupS (runT fs ts ss).1 q =
        fileRun fs q (ts.filter (fun t => t.targetPath == q)) (lookupS ss q) := by
  intro ts
  induction ts with
  | nil =>
    intro ss
    rfl
  | cons t ts ih =>
    intro ss
    have hrun : (runT fs (t :: ts) ss).1 = (runT fs ts (stepT fs ss t).1).1 := rfl
    by_cases hq : (t.targetPath == q) = true
    · have hq' : t.targetPath = q := by simpa using hq
      subst hq'
      rw [hrun, ih, List.filter_cons_of_pos (by simp)]
      show fileRun fs t.targetPath (ts.filter (fun u => u.targetPath == t.targetPath))
          (lookupS (stepT fs ss t).1 t.targetPath) = _
      rw [show fileRun fs t.targetPath
          (t :: ts.filter (fun u => u.targetPath == t.targetPath)) (lookupS ss t.targetPath) =
        fileRun fs t.targetPath (ts.filter (fun u => u.targetPath == t.targetPath))
          (match lookupS ss t.targetPath with
           | none =>
             match fsRead fs t.targetPath with
             | some txt => some (.ok txt (applyT t txt).1)
             | none => some .failed
           | some (.ok o c) => some (.ok o (applyT t c).1)
           | some .failed => some .failed) from rfl]
      rw [lookupS_stepT_self]
    · have hq' : t.targetPath ≠ q := by simpa using hq
      rw [hrun, ih, lookupS_stepT_ne fs ss t hq', List.filter_cons_of_neg (by simpa using hq)]

theorem runT_error_on_missing (fs : FS) {p : LC} (hmiss : fsRead fs p = none) :
    ∀ (ts : List Transform) (ss : List (LC × Session)),
      (lookupS ss p = none ∨ lookupS ss p = some .failed) →
      ∀ t o, (t, o) ∈ (runT fs ts ss).2 → t.targetPath = p → o = Outcome.error := by
  intro ts
  induction ts with
  | nil =>
    intro ss _ t o hm
    cases hm
  | cons t' ts ih =>
    intro ss hinv t o hm hp
    have hm' : (t, o) ∈ (t', (stepT fs ss t').2) :: (runT fs ts (stepT fs ss t').1).2 := hm
    rw [List.mem_cons] at hm'
    rcases hm' with he | hm'
    · have ht : t = t' := congrArg Prod.fst he
      have ho : o = (stepT fs ss t').2 := congrArg Prod.snd he
      subst ht
      rcases stepT_cases fs ss t with ⟨o0, c0, hl, hst⟩ | ⟨hl, hst⟩ |
        ⟨hl, txt, hr, hst⟩ | ⟨hl, hr, hst⟩
      · rw [hp] at hl
        rcases hinv with h | h <;> rw [h] at hl <;> cases hl
      · rw [hst] at ho
        exact ho
      · rw [hp, hmiss] at hr
        cases hr
      · rw [hst] at ho
        exact ho
    · refine ih (stepT fs ss t').1 ?_ t o hm' hp
      by_cases hq : t'.targetPath = p
      · rcases stepT_cases fs ss t' with ⟨o0, c0, hl, hst⟩ | ⟨hl, hst⟩ |
          ⟨hl, txt, hr, hst⟩ | ⟨hl, hr, hst⟩
        · rw [hq] at hl
          rcases hinv with h | h <;> rw [h] at hl <;> cases hl
        · rw [hst]
          exact hinv
        · rw [hq, hmiss] at hr
          cases hr
        · rw [hst, lookupS_cons, if_pos (by simpa using hq)]
          exact Or.inr rfl
      · rw [lookupS_stepT_ne fs ss t' hq]
        exact hinv

theorem traceOf_fst (fs : FS) :
    ∀ (ts : List Transform) (ss : List (LC × Session)),
      (runT fs ts ss).2.map (fun e => e.1) = ts := by
  intro ts
  induction ts with
  | nil =>
    intro ss
    rfl
  | cons t ts ih =>
    intro ss
    have hrun : (runT fs (t :: ts) ss).2 =
        (t, (stepT fs ss t).2) :: (runT fs ts (stepT fs ss t).1).2 := rfl
    rw [hrun, List.map_cons, ih]

/-- Modelled from the spec: `write_text` (section 6) — writing a path on
the write-protected list `wp` fails (permission denied), modelled as
`none`; otherwise the stored content of the path is replaced. -/
def fsWrite (wp : List LC) (fs : FS) (p : LC) (txt : LC) : Option FS :=
  if wp.contains p then none
  else some (fs.map (fun e => if e.1 == p then (e.1, txt) else e))

/-- Modelled from the spec: the Engine's write-back phase (section 4.4) —
each changed session is written back once; a failing write leaves the
filesystem unchanged at that path and the remaining write-backs still
proceed. -/
def writeBack (wp : List LC) : FS → List (LC × Session) → FS
  | fs, [] => fs
  | fs, e :: ss =>
    match e.2 with
    | Session.ok o c =>
      if c ≠ o then
        match fsWrite wp fs e.1 c with
        | some fs2 => writeBack wp fs2 ss
        | none => writeBack wp fs ss
      else writeBack wp fs ss
    | Session.failed => writeBack wp fs ss

/-- Whether the run's write-back of a path fails: the path is due to be
written (its final text changed) and writing it is not permitted. -/
def writeFails (wp : List LC) (fs : FS) (ts : List Transform) (p : LC) : Bool :=
  (writtenPaths fs ts).contains p && wp.contains p

/-- Modelled from the spec: a full Engine run over an ordered Transform
sequence (section 4.4) — plays the sessions, writes back exactly the
changed files, and a failing write surfaces as an `Error` outcome for
every Transform targeting that file while the run continues. -/
def engineRun (wp : List LC) (fs : FS) (ts : List Transform) :
    FS × List (Transform × Outcome) :=
  (writeBack wp fs (sessionsOf fs ts),
   (traceOf fs ts).map (fun e =>
     if writeFails wp fs ts e.1.targetPath then (e.1, Outcome.error) else e))

theorem fsRead_cons (a b q : LC) (fs : FS) :
    fsRead ((a, b) :: fs) q = if a == q then some b else fsRead fs q := by
  unfold fsRead
  rw [List.find?_cons]
  by_cases h : (a == q) = true <;> simp [h]

theorem fsRead_writeMap (p txt q : LC) : ∀ (fs : FS),
    fsRead (fs.map (fun e => if e.1 == p then (e.1, txt) else e)) q =
      if p == q then (fsRead fs q).map (fun _ => txt) else fsRead fs q := by
  intro fs
  induction fs with
  | nil =>
    show (none : Option LC) =
      if (p == q) = true then Option.map (fun _ => txt) none else none
    by_cases h : (p == q) = true
    · rw [if_pos h]
      rfl
    · rw [if_neg h]
  | cons e fs ih =>
    obtain ⟨a, b⟩ := e
    have hmap1 : ((a, b) :: fs).map (fun e => if e.1 == p then (e.1, txt) else e)
        = (a, if a == p then txt else b) ::
            fs.map (fun e => if e.1 == p then (e.1, txt) else e) := by
      rw [List.map_cons]
      congr 1
      show (if (a == p) = true then (a, txt) else (a, b)) = _
      by_cases hap : (a == p) = true
      · rw [if_pos hap, if_pos hap]
      · rw [if_neg hap, if_neg hap]
    rw [hmap1, fsRead_cons, fsRead_cons, ih]
    by_cases haq : (a == q) = true
    · rw [if_pos haq, if_pos haq]
      by_cases hap : (a == p) = true
      · have hpq : (p == q) = true := by
          rw [← eq_of_beq hap, eq_of_beq haq]
          exact beq_self_eq_true q
        rw [if_pos hpq, if_pos hap]
        rfl
      · have hpq : (p == q) = false := by
          rw [Bool.eq_false_iff]
          intro hb
          apply hap
          have h1 : a = p := by
            rw [eq_of_beq haq, eq_of_beq hb]
          rw [h1]
          exact beq_self_eq_true p
        have hpq' : ¬ (p == q) = true := by
          rw [hpq]
          exact Bool.false_ne_true
        rw [if_neg hap, if_neg hpq']
    · rw [if_neg haq, if_neg haq]

theorem writeBack_agree (wp : List LC) (q : LC) (hq : wp.contains q = false) :
    ∀ (ss : List (LC × Session)) (fs1 fs2 : FS),
      fsRead fs1 q = fsRead fs2 q →
      fsRead (writeBack wp fs1 ss) q = fsRead (writeBack [] fs2 ss) q := by
  intro ss
  induction ss with
  | nil =>
    intro fs1 fs2 h
    exact h
  | cons e ss ih =>
    intro fs1 fs2 hagree
    obtain ⟨pe, s⟩ := e
    cases s with
    | failed => exact ih fs1 fs2 hagree
    | ok o c =>
      show fsRead (if c ≠ o then
          (match fsWrite wp fs1 pe c with
           | some fs2 => writeBack wp fs2 ss
           | none => writeBack wp fs1 ss)
        else writeBack wp fs1 ss) q =
        fsRead (if c ≠ o then
          (match fsWrite [] fs2 pe c with
           | some fs3 => writeBack [] fs3 ss
           | none => writeBack [] fs2 ss)
        else writeBack [] fs2 ss) q
      by_cases hco : c ≠ o
      · rw [if_pos hco, if_pos hco]
        have h2 : fsWrite [] fs2 pe c =
            some (fs2.map (fun e => if e.1 == pe then (e.1, c) else e)) := rfl
        rw [h2]
        by_cases hw : wp.contains pe = true
        · have h1 : fsWrite wp fs1 pe c = none := by
            unfold fsWrite
            rw [if_pos hw]
          rw [h1]
          show fsRead (writeBack wp fs1 ss) q = _
          apply ih
          rw [fsRead_writeMap]
          have hne : (pe == q) = false := by
            rw [Bool.eq_false_iff]
            intro hb
            have hpq : pe = q := eq_of_beq hb
            rw [hpq, hq] at hw
            cases hw
          rw [if_neg (by simp [hne])]
          exact hagree
        · have h1 : fsWrite wp fs1 pe c =
              some (fs1.map (fun e => if e.1 == pe then (e.1, c) else e)) := by
            unfold fsWrite
            rw [if_neg (by simpa using hw)]
          rw [h1]
          show fsRead (writeBack wp _ ss) q = _
          apply ih
          rw [fsRead_writeMap, fsRead_writeMap]
          by_cases hpq : (pe == q) = true
          · rw [if_pos hpq, if_pos hpq, hagree]
          · rw [if_neg hpq, if_neg hpq]
            exact hagree
      · rw [if_neg hco, if_neg hco]
        exact ih fs1 fs2 hagree

theorem writeBack_protected (wp : List LC) (q : LC) (hq : wp.contains q = true) :
    ∀ (ss : List (LC × Session)) (fs : FS),
      fsRead (writeBack wp fs ss) q = fsRead fs q := by
  intro ss
  induction ss with
  | nil =>
    intro fs
    rfl
  | cons e ss ih =>
    intro fs
    obtain ⟨pe, s⟩ := e
    cases s with
    | failed => exact ih fs
    | ok o c =>
      show fsRead (if c ≠ o then
          (match fsWrite wp fs pe c with
           | some fs2 => writeBack wp fs2 ss
           | none => writeBack wp fs ss)
        else writeBack wp fs ss) q = fsRead fs q
      by_cases hco : c ≠ o
      · rw [if_pos hco]
        by_cases hw : wp.contains pe = true
        · have h1 : fsWrite wp fs pe c = none := by
            unfold fsWrite
            rw [if_pos hw]
          rw [h1]
          exact ih fs
        · have h1 : fsWrite wp fs pe c =
              some (fs.map (fun e => if e.1 == pe then (e.1, c) else e)) := by
            unfold fsWrite
            rw [if_neg (by simpa using hw)]
          rw [h1]
          show fsRead (writeBack wp _ ss) q = _
          rw [ih, fsRead_writeMap]
          have hne : (pe == q) = false := by
            rw [Bool.eq_false_iff]
            intro hb
            have hpq : pe = q := eq_of_beq hb
            rw [hpq, hq] at hw
            exact hw rfl
          rw [if_neg (by simp [hne])]
      · rw [if_neg hco]
        exact ih fs

theorem engineRun_trace_fst (wp : List LC) (fs : FS) (ts : List Transform) :
    (engineRun wp fs ts).2.map (fun e => e.1) = ts := by
  have h1 : (engineRun wp fs ts).2 = (traceOf fs ts).map
      (fun e => if writeFails wp fs ts e.1.targetPath
        then (e.1, Outcome.error) else e) := rfl
  rw [h1, List.map_map]
  have hfun : ((fun e : Transform × Outcome => e.1) ∘
      (fun e : Transform × Outcome =>
        if writeFails wp fs ts e.1.targetPath then (e.1, Outcome.error) else e)) =
      fun e : Transform × Outcome => e.1 := by
    funext e
    by_cases h : writeFails wp fs ts e.1.targetPath = true
    · simp [h]
    · simp [h]
  rw [hfun]
  exact traceOf_fst fs ts []

/-- C5: Error isolation — when reading one target file fails, or the
write-back of one changed target file fails because its path is
write-protected, every Transform targeting that file gets an `Error`
outcome in the run's final trace; the run still produces one outcome for
every Transform in order; every file's final session is exactly the
replay of only the Transforms scoped to it; Transforms targeting
writable files keep their own outcomes; the write-back of every writable
path is exactly what it would have been with no write failure at all;
and a write-protected path is left unchanged on disk. -/
theorem c5_error_isolation (wp : List LC) (fs : FS) (ts : List Transform)
    (p : LC)
    (hfail : fsRead fs p = none ∨ writeFails wp fs ts p = true) :
    (∀ t o, (t, o) ∈ (engineRun wp fs ts).2 → t.targetPath = p →
        o = Outcome.error) ∧
    (engineRun wp fs ts).2.map (fun e => e.1) = ts ∧
    (∀ q, lookupS (sessionsOf fs ts) q =
        fileRun fs q (ts.filter (fun t => t.targetPath == q)) none) ∧
    (∀ q t o, wp.contains q = false → (t, o) ∈ (engineRun wp fs ts).2 →
        t.targetPath = q → (t, o) ∈ traceOf fs ts) ∧
    (∀ q, wp.contains q = false →
        fsRead (engineRun wp fs ts).1 q = fsRead (engineRun [] fs ts).1 q) ∧
    (wp.contains p = true → fsRead (engineRun wp fs ts).1 p = fsRead fs p) := by
  refine ⟨?_, engineRun_trace_fst wp fs ts, ?_, ?_, ?_, ?_⟩
  · intro t o hm hp
    obtain ⟨e, he, hfe⟩ := List.mem_map.mp hm
    by_cases hw : writeFails wp fs ts e.1.targetPath = true
    · rw [if_pos hw] at hfe
      have ho := congrArg Prod.snd hfe
      exact ho.symm
    · rw [if_neg hw] at hfe
      rcases hfail with hread | hwfail
      · refine runT_error_on_missing fs hread ts [] (Or.inl rfl) t o ?_ hp
        rw [hfe] at he
        exact he
      · exfalso
        have h1 : e.1 = t := congrArg Prod.fst hfe
        rw [h1, hp] at hw
        exact hw hwfail
  · intro q
    have hf := runT_file_frame fs q ts []
    rw [show lookupS ([] : List (LC × Session)) q = none from rfl] at hf
    exact hf
  · intro q t o hq hm hp
    obtain ⟨e, he, hfe⟩ := List.mem_map.mp hm
    by_cases hw : writeFails wp fs ts e.1.targetPath = true
    · rw [if_pos hw] at hfe
      have h1 : e.1 = t := congrArg Prod.fst hfe
      rw [h1, hp] at hw
      unfold writeFails at hw
      rw [Bool.and_eq_true] at hw
      rw [hw.2] at hq
      cases hq
    · rw [if_neg hw] at hfe
      rw [← hfe]
      exact he
  · intro q hq
    exact writeBack_agree wp q hq (sessionsOf fs ts) fs fs rfl
  · intro hp
    exact writeBack_protected wp p hp (sessionsOf fs ts) fs

/-- A concrete filesystem containing only `b.rs`, so that reads of `a.rs`
fail. -/
def c5fs : FS := [((("b.rs").toList), (("ab").toList))]

/-- A concrete Transform targeting the missing file `a.rs`. -/
def c5tm : Transform :=
  ⟨("m1").toList, ("a.rs").toList, ("ab").toList, ("xy").toList,
    false, stdCheck (("xy").toList)⟩

/-- A concrete Transform targeting the present file `b.rs`. -/
def c5tb : Transform :=
  ⟨("b1").toList, ("b.rs").toList, ("ab").toList, ("xy").toList,
    false, stdCheck (("xy").toList)⟩

/-- C5 witness: on a run where `a.rs` is missing, the session of `b.rs`
still equals the replay of only its own Transforms; and on a run where
the changed file `b.rs` is write-protected, its one Transform's final
outcome is `Error` while the file is left unchanged on disk. -/
theorem c5_witness :
    lookupS (sessionsOf c5fs [c5tm, c5tb]) (("b.rs").toList) =
      fileRun c5fs (("b.rs").toList)
        ([c5tm, c5tb].filter (fun t => t.targetPath == (("b.rs").toList))) none
    ∧ (engineRun [(("b.rs").toList)] c5fs [c5tb]).2 = [(c5tb, Outcome.error)]
    ∧ fsRead (engineRun [(("b.rs").toList)] c5fs [c5tb]).1 (("b.rs").toList) =
        fsRead c5fs (("b.rs").toList) := by
  have hw := c5_error_isolation [(("b.rs").toList)] c5fs [c5tb]
    (("b.rs").toList) (Or.inr (by decide))
  refine ⟨(c5_error_isolation [] c5fs [c5tm, c5tb] (("a.rs").toList)
    (Or.inl (by decide))).2.2.1 (("b.rs").toList), ?_, hw.2.2.2.2.2 (by decide)⟩
  have h2 := hw.2.1
  cases htr : (engineRun [(("b.rs").toList)] c5fs [c5tb]).2 with
  | nil =>
    rw [htr] at h2
    cases h2
  | cons e rest =>
    obtain ⟨t, o⟩ := e
    rw [htr, List.map_cons] at h2
    have ht : t = c5tb := by
      have := congrArg (fun l => l.headD c5tb) h2
      simpa using this
    have hrest : rest = [] := by
      have htl := congrArg List.tail h2
      simp only [List.tail_cons] at htl
      exact List.map_eq_nil_iff.mp htl
    have ho : o = Outcome.error := by
      refine hw.1 t o ?_ ?_
      · rw [htr]
        exact List.mem_cons_self _ _
      · rw [ht]
        rfl
    rw [ht, ho, hrest]

/-! ## The spec-modelled PatchSet: construction-time validation and
dependency-ordered resolution -/

/-- Modelled from the spec: the match-spec kind of a Transform (literal or
regex), visible at PatchSet construction time. -/
inductive MatchKind
  | lit
  | rex
deriving DecidableEq

/-- Modelled from the spec: a Transform as declared by the caller, before
PatchSet construction validates it.  Regex matching itself is not pinned
down by the spec beyond compilation, so a validated regex Transform is
carried as an ordinary matcher; only the compile-failure behaviour is
claim-relevant. -/
structure RawTransform where
  tid : LC
  targetPath : LC
  kind : MatchKind
  pattern : LC
  replacement : LC
  useAll : Bool
  icheck : LC → Bool

/-- Modelled from the spec: regex compilation as a validity check run once
per regex Transform at PatchSet construction time.  The model rejects
dangling escapes and unbalanced groups or classes (a lone `(` fails),
while characters inside a class and escaped characters stay literal. -/
def balCheck : LC → List Char → Bool
  | [], st => st.isEmpty
  | '\\' :: _ :: cs, st => balCheck cs st
  | ['\\'], _ => false
  | ']' :: cs, '[' :: st => balCheck cs st
  | _ :: cs, '[' :: st => balCheck cs ('[' :: st)
  | '(' :: cs, st => balCheck cs ('(' :: st)
  | '[' :: cs, st => balCheck cs ('[' :: st)
  | ')' :: cs, '(' :: st => balCheck cs st
  | ')' :: _, _ => false
  | _ :: cs, st => balCheck cs st

/-- Whether a regex pattern compiles. -/
def compileOk (pat : LC) : Bool := balCheck pat []

/-- Modelled from the spec: a PatchSet (section 3) — an ordered sequence
of validated Transforms with declared must-follow dependency edges; an
edge `(a, b)` declares that the Transform with id `b` runs after the one
with id `a`. -/
structure PatchSet where
  ts : List Transform
  deps : List (LC × LC)

/-- Modelled from the spec: configuration-time errors (section 7),
surfaced before any file I/O. -/
inductive ConfigError
  | regexCompile (pat : LC)
  | cyclic (ids : List LC)
deriving DecidableEq

/-- Validated Transform obtained from a declared one. -/
def toTransform (r : RawTransform) : Transform :=
  ⟨r.tid, r.targetPath, r.pattern, r.replacement, r.useAll, r.icheck⟩

/-- First declared regex Transform whose pattern fails to compile. -/
def firstBadRegex : List RawTransform → Option LC
  | [] => none
  | r :: rs =>
    if r.kind == MatchKind.rex && !(compileOk r.pattern) then some r.pattern
    else firstBadRegex rs

/-- Modelled from the spec: PatchSet construction — compiles every regex
Transform's pattern once, failing fast with a `RegexCompileError` before
the Engine performs any file I/O. -/
def buildPS (raw : List RawTransform) (deps : List (LC × LC)) :
    Except ConfigError PatchSet :=
  match firstBadRegex raw with
  | some pat => Except.error (ConfigError.regexCompile pat)
  | none => Except.ok ⟨raw.map toTransform, deps⟩

/-- Whether Transform id `i` is ready to run: every dependency edge into
`i` has its source already emitted. -/
def ready (deps : List (LC × LC)) (done : List LC) (i : LC) : Bool :=
  deps.all (fun d => !(d.2 == i) || done.contains d.1)

/-- Removes the first list element satisfying `p`, keeping the order of
the rest. -/
def extractFirst (p : Transform → Bool) :
    List Transform → Option (Transform × List Transform)
  | [] => none
  | t :: ts =>
    if p t then some (t, ts)
    else (extractFirst p ts).map (fun pr => (pr.1, t :: pr.2))

/-- Fuel-driven worker for `resolveOrder`: repeatedly emits the first
declared Transform whose dependencies are satisfied (ties broken by
declaration order); reports failure when no pending Transform is ready
(a dependency cycle). -/
def resolveGoF (deps : List (LC × LC)) :
    Nat → List Transform → List LC → Option (List Transform)
  | _, [], _ => some []
  | 0, _ :: _, _ => none
  | fuel + 1, p :: ps, done =>
    match extractFirst (fun t => ready deps done t.tid) (p :: ps) with
    | none => none
    | some (t, rest) =>
      (resolveGoF deps fuel rest (t.tid :: done)).map (fun l => t :: l)

/-- Modelled from the spec: `resolve_order()` (section 4.3) — topologically
sorts the PatchSet's Transforms along the dependency edges, ties broken by
declaration order; `none` models the `CyclicDependency` error. -/
def resolveOrder (ps : PatchSet) : Option (List Transform) :=
  resolveGoF ps.deps ps.ts.length ps.ts []

theorem extractFirst_pred {p : Transform → Bool} :
    ∀ {ts : List Transform} {t : Transform} {rest : List Transform},
      extractFirst p ts = some (t, rest) → p t = true := by
  intro ts
  induction ts with
  | nil =>
    intro t rest h
    cases h
  | cons u us ih =>
    intro t rest h
    unfold extractFirst at h
    by_cases hp : p u = true
    · rw [if_pos hp] at h
      cases h
      exact hp
    · rw [if_neg hp] at h
      cases he : extractFirst p us with
      | none => rw [he] at h; cases h
      | some pr =>
        rw [he] at h
        have h1 : pr.1 = t := by
          cases h
          rfl
        exact h1 ▸ ih he

theorem resolveGoF_respects (deps : List (LC × LC)) :
    ∀ (fuel : Nat) (pending : List Transform) (done : List LC)
      (out : List Transform),
      resolveGoF deps fuel pending done = some out →
      ∀ a b, (a, b) ∈ deps →
      ∀ i, ∀ hi : i < out.length, (out.get ⟨i, hi⟩).tid = b →
        a ∈ done ∨ ∃ j, ∃ hj : j < out.length, j < i ∧ (out.get ⟨j, hj⟩).tid = a := by
  intro fuel
  induction fuel with
  | zero =>
    intro pending done out h a b hd i hi hb
    cases pending with
    | nil =>
      cases h
      simp at hi
    | cons p ps => cases h
  | succ fuel ih =>
    intro pending done out h a b hd i hi hb
    cases pending with
    | nil =>
      cases h
      simp at hi
    | cons p ps =>
      unfold resolveGoF at h
      cases he : extractFirst (fun t => ready deps done t.tid) (p :: ps) with
      | none =>
        rw [he] at h
        cases h
      | some pr =>
        obtain ⟨t, rest⟩ := pr
        rw [he] at h
        have h' : Option.map (fun l => t :: l)
            (resolveGoF deps fuel rest (t.tid :: done)) = some out := h
        cases hrec : resolveGoF deps fuel rest (t.tid :: done) with
        | none =>
          rw [hrec] at h'
          cases h'
        | some l =>
          rw [hrec] at h'
          have hout : out = t :: l := by
            have h2 : some (t :: l) = some out := h'
            exact ((Option.some.injEq _ _).mp h2).symm
          subst hout
          cases i with
          | zero =>
            have hready : ready deps done t.tid = true :=
              extractFirst_pred he
            have hb0 : t.tid = b := hb
            unfold ready at hready
            rw [List.all_eq_true] at hready
            have hthis := hready (a, b) hd
            rw [hb0] at hthis
            simp only [beq_self_eq_true, Bool.not_true, Bool.false_or] at hthis
            left
            obtain ⟨x, hx, hax⟩ := List.contains_iff_exists_mem_beq.mp hthis
            exact (eq_of_beq hax) ▸ hx
          | succ i =>
            have hi' : i < l.length := by
              have := hi
              simp only [List.length_cons] at this
              omega
            have hb' : (l.get ⟨i, hi'⟩).tid = b := hb
            rcases ih rest (t.tid :: done) l hrec a b hd i hi' hb' with hdone | hex
            · rw [List.mem_cons] at hdone
              rcases hdone with heq | hdone
              · right
                refine ⟨0, by simp, by omega, ?_⟩
                exact heq.symm
              · left
                exact hdone
            · obtain ⟨j, hj, hji, hja⟩ := hex
              right
              refine ⟨j + 1, by simp only [List.length_cons]; omega, by omega, ?_⟩
              exact hja

theorem resolveGoF_no_deps :
    ∀ (fuel : Nat) (pending : List Transform) (done : List LC),
      pending.length ≤ fuel →
      resolveGoF ([] : List (LC × LC)) fuel pending done = some pending := by
  intro fuel
  induction fuel with
  | zero =>
    intro pending done hlen
    cases pending with
    | nil => rfl
    | cons p ps => simp at hlen
  | succ fuel ih =>
    intro pending done hlen
    cases pending with
    | nil => rfl
    | cons p ps =>
      have hready : ready ([] : List (LC × LC)) done p.tid = true := rfl
      unfold resolveGoF
      rw [show extractFirst (fun t => ready ([] : List (LC × LC)) done t.tid) (p :: ps)
          = some (p, ps) by unfold extractFirst; rw [if_pos hready]]
      show Option.map (fun l => p :: l)
          (resolveGoF ([] : List (LC × LC)) fuel ps (p.tid :: done)) = some (p :: ps)
      rw [ih ps (p.tid :: done) (by simp only [List.length_cons] at hlen; omega)]
      rfl

/-- C7: Ordering — whenever `resolve_order` succeeds, for every declared
dependency edge "b after a", every position holding the Transform with id
`b` is preceded by a position holding a Transform with id `a` (regardless
of declaration order); and on a PatchSet with no dependency edges the
resolved order is exactly the declaration order, so ties are broken by
declaration order. -/
theorem c7_resolve_order (ps : PatchSet) (order : List Transform)
    (h : resolveOrder ps = some order) :
    (∀ a b, (a, b) ∈ ps.deps →
      ∀ i, ∀ hi : i < order.length, (order.get ⟨i, hi⟩).tid = b →
        ∃ j, ∃ hj : j < order.length, j < i ∧ (order.get ⟨j, hj⟩).tid = a) ∧
    (ps.deps = [] → order = ps.ts) := by
  constructor
  · intro a b hd i hi hb
    rcases resolveGoF_respects ps.deps ps.ts.length ps.ts [] order h a b hd i hi hb with
      hdone | hex
    · cases hdone
    · exact hex
  · intro hdeps
    unfold resolveOrder at h
    rw [hdeps, resolveGoF_no_deps ps.ts.length ps.ts [] (le_refl _)] at h
    exact ((Option.some.injEq _ _).mp h).symm

/-- The dependency-target Transform `a` of the C7 scenario (declared
second). -/
def c7A : Transform :=
  ⟨("a").toList, ("lib.rs").toList, ("p").toList, ("q").toList,
    false, stdCheck (("q").toList)⟩

/-- The dependent Transform `b` of the C7 scenario (declared first, but
required to run after `a`). -/
def c7B : Transform :=
  ⟨("b").toList, ("main.rs").toList, ("p").toList, ("q").toList,
    false, stdCheck (("q").toList)⟩

/-- A PatchSet declaring `b` before `a` but with a "b after a" edge. -/
def c7ps : PatchSet := ⟨[c7B, c7A], [((("a").toList), (("b").toList))]⟩

/-- C7 witness: on the concrete PatchSet the resolved order is `[a, b]`,
and the theorem yields the position of `a` before `b`. -/
theorem c7_witness :
    ∃ j, ∃ hj : j < ([c7A, c7B] : List Transform).length, j < 1 ∧
      (([c7A, c7B] : List Transform).get ⟨j, hj⟩).tid = ("a").toList :=
  (c7_resolve_order c7ps [c7A, c7B] rfl).1 (("a").toList) (("b").toList)
    (by simp [c7ps]) 1 (by simp) rfl

/-- Modelled from the spec: the caller-facing run — PatchSet construction
(with per-Transform regex compilation) and dependency resolution happen
first, and any configuration error aborts before the Engine touches any
file. -/
def runPatchSet (raw : List RawTransform) (deps : List (LC × LC))
    (wp : List LC) (fs : FS) :
    Except ConfigError (FS × List (Transform × Outcome)) :=
  match buildPS raw deps with
  | .error e => .error e
  | .ok ps =>
    match resolveOrder ps with
    | none => .error (.cyclic (ps.ts.map (fun t => t.tid)))
    | some order => .ok (engineRun wp fs order)

theorem firstBadRegex_of_exists {raw : List RawTransform}
    (h : ∃ r ∈ raw, r.kind = MatchKind.rex ∧ compileOk r.pattern = false) :
    ∃ pat, firstBadRegex raw = some pat ∧ compileOk pat = false := by
  induction raw with
  | nil =>
    obtain ⟨r, hm, -⟩ := h
    cases hm
  | cons r rs ih =>
    by_cases hb : (r.kind == MatchKind.rex && !(compileOk r.pattern)) = true
    · refine ⟨r.pattern, ?_, ?_⟩
      · unfold firstBadRegex
        rw [if_pos hb]
      · have := (Bool.and_eq_true _ _).mp hb
        have h2 := this.2
        rw [Bool.not_eq_true'] at h2
        exact h2
    · obtain ⟨r', hm', hk', hc'⟩ := h
      rw [List.mem_cons] at hm'
      rcases hm' with rfl | hm'
      · exfalso
        apply hb
        rw [Bool.and_eq_true]
        refine ⟨by rw [hk']; rfl, by rw [hc']; rfl⟩
      · obtain ⟨pat, hfb, hc⟩ := ih ⟨r', hm', hk', hc'⟩
        refine ⟨pat, ?_, hc⟩
        unfold firstBadRegex
        rw [if_neg hb]
        exact hfb

/-- C6: Regex fail-fast — every regex pattern is compiled once per
Transform at PatchSet construction time, and when some declared regex
Transform's pattern fails to compile, the whole run resolves to a
`RegexCompileError` configuration error before the Engine performs any
file I/O (the run never produces a filesystem or any outcome). -/
theorem c6_regex_fail_fast (raw : List RawTransform) (deps : List (LC × LC))
    (wp : List LC) (fs : FS)
    (h : ∃ r ∈ raw, r.kind = MatchKind.rex ∧ compileOk r.pattern = false) :
    ∃ pat, runPatchSet raw deps wp fs =
        Except.error (ConfigError.regexCompile pat) ∧
      compileOk pat = false := by
  obtain ⟨pat, hfb, hc⟩ := firstBadRegex_of_exists h
  refine ⟨pat, ?_, hc⟩
  unfold runPatchSet buildPS
  rw [hfb]

/-- A declared regex Transform whose pattern (a lone open group) fails to
compile. -/
def c6bad : RawTransform :=
  ⟨("r1").toList, ("a.rs").toList, MatchKind.rex, ("(").toList, ("x").toList,
    false, stdCheck (("x").toList)⟩

/-- C6 witness: a PatchSet declaring the bad regex Transform resolves to a
`RegexCompileError` before any file I/O. -/
theorem c6_witness :
    ∃ pat, runPatchSet [c6bad] [] [] c4fs =
        Except.error (ConfigError.regexCompile pat) ∧
      compileOk pat = false :=
  c6_regex_fail_fast [c6bad] [] [] c4fs
    ⟨c6bad, List.mem_singleton.mpr rfl, rfl, by decide⟩

/-! ## Embedding of fix_model_disability_imports (fix_imports.py)

The function checks `"use tauri::" in content`, searches for the first
match of the regex `use tauri::` followed by a braced import list ending
in `;`, augments the captured import list with `Manager` and `Emitter`
when missing, and rewrites every match of the regex with the one
new statement via `re.sub`. -/

/-- The literal `use tauri::` tested by the Python `in` check. -/
def tauriUse : LC := ("use tauri::").toList

/-- The literal head of the import regex: `use tauri::` followed by an
opening brace. -/
def tauriHead : LC := ("use tauri::\x7b").toList

/-- Deterministic matcher for the import regex at the start of the text:
after the head, the capture runs to the first closing brace, which must be
followed by a semicolon.  Returns the capture and the rest after the
match. -/
def tryT (cs : LC) : Option (LC × LC) :=
  if tauriHead.isPrefixOf cs then
    match (cs.drop tauriHead.length).dropWhile (fun c => !(c == '\x7d')) with
    | '\x7d' :: ';' :: rest =>
      some ((cs.drop tauriHead.length).takeWhile (fun c => !(c == '\x7d')), rest)
    | _ => none
  else none

/-- Left-to-right scanner for the import regex, as performed by
`re.search` / `re.sub`: returns the text before the first match, the
captured import list, and the rest after the match. -/
def scanT : LC → Option (LC × LC × LC)
  | [] => none
  | c :: cs =>
    match tryT (c :: cs) with
    | some gr => some ([], gr.1, gr.2)
    | none =>
      match scanT cs with
      | some pmr => some (c :: pmr.1, pmr.2.1, pmr.2.2)
      | none => none

/-- One item of a parsed `re.sub` replacement template: a literal
character, a reference to the whole match (group 0), or a reference to
the pattern's single capture group (group 1). -/
inductive TItem
  | lit (c : Char)
  | grp0
  | grp1
deriving DecidableEq

/-- Decimal value of a digit string (Python `int` on the all-digit group
names accepted inside a replacement template's `g` reference). -/
def decVal (cs : LC) : Nat :=
  cs.foldl (fun a c => a * 10 + (c.toNat - 48)) 0

/-- Octal digit test for the template's octal character escapes. -/
def isOct (c : Char) : Bool := '0' ≤ c && c ≤ '7'

/-- Parses a group reference of the form `<name>` after a backslash-g in
a replacement template, for a pattern with exactly one unnamed group:
an all-digit name denotes that group number (0 is the whole match, 1 the
capture, larger numbers are invalid group references); any other name is
unknown; a missing bracket is an error.  Returns the item and the rest of
the template. -/
def parseGRef (cs : LC) : Option (TItem × LC) :=
  match cs with
  | '<' :: rest =>
    match rest.dropWhile (fun c => !(c == '>')) with
    | '>' :: rem2 =>
      let name := rest.takeWhile (fun c => !(c == '>'))
      if name.isEmpty then none
      else if name.all (fun c => c.isDigit) then
        if decVal name == 0 then some (TItem.grp0, rem2)
        else if decVal name == 1 then some (TItem.grp1, rem2)
        else none
      else none
    | _ => none
  | _ => none

/-- Handles a backslash followed by a digit in a replacement template:
a leading `0` starts an octal escape of up to two further octal digits;
two leading octal digits followed by a third octal digit form a
three-digit octal escape (invalid above 255); any other two-digit run is
a group reference of at least 10, an invalid group for this pattern; a
single nonzero digit is a group reference, valid only for group 1.
Returns the produced items and the rest of the template. -/
def parseDigits (d : Char) (cs2 : LC) : Option (List TItem × LC) :=
  if d == '0' then
    match cs2 with
    | d2 :: cs3 =>
      if isOct d2 then
        match cs3 with
        | d3 :: cs4 =>
          if isOct d3 then
            some ([TItem.lit (Char.ofNat ((d2.toNat - 48) * 8 + (d3.toNat - 48)))], cs4)
          else some ([TItem.lit (Char.ofNat (d2.toNat - 48))], cs3)
        | [] => some ([TItem.lit (Char.ofNat (d2.toNat - 48))], [])
      else some ([TItem.lit (Char.ofNat 0)], cs2)
    | [] => some ([TItem.lit (Char.ofNat 0)], [])
  else
    match cs2 with
    | d2 :: cs3 =>
      if d2.isDigit then
        if isOct d && isOct d2 then
          match cs3 with
          | d3 :: cs4 =>
            if isOct d3 then
              let v := (d.toNat - 48) * 64 + (d2.toNat - 48) * 8 + (d3.toNat - 48)
              if v ≤ 255 then some ([TItem.lit (Char.ofNat v)], cs4) else none
            else none
          | [] => none
        else none
      else if d == '1' then some ([TItem.grp1], cs2) else none
    | [] => if d == '1' then some ([TItem.grp1], []) else none

/-- Handles a backslash followed by a non-g non-digit character in a
replacement template: the standard character escapes produce their
character, any other ASCII letter is a bad escape, and any other
character is kept together with the backslash. -/
def escLit (c : Char) : Option LC :=
  if c == 'a' then some [Char.ofNat 7]
  else if c == 'b' then some [Char.ofNat 8]
  else if c == 'f' then some [Char.ofNat 12]
  else if c == 'n' then some [Char.ofNat 10]
  else if c == 'r' then some [Char.ofNat 13]
  else if c == 't' then some [Char.ofNat 9]
  else if c == 'v' then some [Char.ofNat 11]
  else if c == '\\' then some ['\\']
  else if c.isAlpha then none
  else some ['\\', c]

/-- Fuel-driven parser for a string replacement template, as `re.sub`
processes a string replacement for this one-group pattern: backslash
escapes are expanded, backslash-digit and backslash-g forms are group
references, and a malformed template (trailing backslash, bad escape,
invalid or unknown group) is an error.  The fuel bounds the number of
consumed characters. -/
def parseTmplF : Nat → LC → Option (List TItem)
  | _, [] => some []
  | 0, _ :: _ => none
  | fuel + 1, c :: cs =>
    if c == '\\' then
      match cs with
      | [] => none
      | d :: cs2 =>
        if d == 'g' then
          match parseGRef cs2 with
          | some itr => (parseTmplF fuel itr.2).map (fun its => itr.1 :: its)
          | none => none
        else if d.isDigit then
          match parseDigits d cs2 with
          | some pr => (parseTmplF fuel pr.2).map (fun its => pr.1 ++ its)
          | none => none
        else
          match escLit d with
          | some ls => (parseTmplF fuel cs2).map (fun its => ls.map TItem.lit ++ its)
          | none => none
    else
      (parseTmplF fuel cs).map (fun its => TItem.lit c :: its)

/-- Parses a string replacement template. -/
def parseTmpl (rep : LC) : Option (List TItem) := parseTmplF rep.length rep

/-- Expands a parsed template against one match of the import regex with
capture `g` (the whole match is reconstructed from the capture, as the
rest of the pattern is literal). -/
def expandT (g : LC) : List TItem → LC
  | [] => []
  | TItem.lit c :: its => c :: expandT g its
  | TItem.grp0 :: its => (tauriHead ++ g ++ '\x7d' :: ';' :: []) ++ expandT g its
  | TItem.grp1 :: its => g ++ expandT g its

/-- Fuel-driven worker for `subTLit`. -/
def subTF (rep : LC) : Nat → LC → LC
  | 0, cs => cs
  | fuel + 1, cs =>
    match scanT cs with
    | none => cs
    | some pmr => pmr.1 ++ rep ++ subTF rep fuel pmr.2.2

/-- Reference substitution taking the replacement literally: replaces
every non-overlapping match of the import regex by the constant `rep`,
left to right — the behaviour of `re.sub` on a backslash-free string
replacement. -/
def subTLit (rep cs : LC) : LC := subTF rep cs.length cs

/-- Fuel-driven worker for `subT`: replaces every non-overlapping match,
left to right, by the template expanded against that match's capture. -/
def subTE (its : List TItem) : Nat → LC → LC
  | 0, cs => cs
  | fuel + 1, cs =>
    match scanT cs with
    | none => cs
    | some pmr => pmr.1 ++ expandT pmr.2.1 its ++ subTE its fuel pmr.2.2

/-- Python's `re.sub` with a string replacement for the import regex: the
replacement is parsed once as a template (a malformed template raises,
modelled as `none`), and every non-overlapping match is rewritten, left
to right, by the template expanded against that match's groups. -/
def subT (rep cs : LC) : Option LC :=
  match parseTmpl rep with
  | none => none
  | some its => some (subTE its cs.length cs)

/-- Python's `str.strip()`: removes leading and trailing whitespace. -/
def pyStrip (cs : LC) : LC :=
  ((cs.dropWhile (fun c => c.isWhitespace)).reverse.dropWhile
    (fun c => c.isWhitespace)).reverse

/-- The new import statement built from a captured import list: the list
is stripped, `Manager` and `Emitter` are appended when absent, and the
result is wrapped back into a braced `use tauri::...;` statement. -/
def mkNewImport (g : LC) : LC :=
  let i0 := pyStrip g
  let i1 := if hasSub (("Manager").toList) i0 then i0 else i0 ++ (", Manager").toList
  let i2 := if hasSub (("Emitter").toList) i1 then i1 else i1 ++ (", Emitter").toList
  ("use tauri::\x7b").toList ++ i2 ++ ("\x7d;").toList

/-- Content transformation of `fix_model_disability_imports` in
`fix_imports.py`: on text containing `use tauri::`, rewrite every braced
tauri import statement by `re.sub` with the statement built from the
first match's capture as a string replacement (template-expanded per
match; a malformed template raises, modelled as `none`); on text without
`use tauri::`, prepend a new import line.  When the regex never matches,
the text is returned unchanged. -/
def fix_model_disability_imports (content : LC) : Option LC :=
  if hasSub tauriUse content then
    match scanT content with
    | some pmr => subT (mkNewImport pmr.2.1) content
    | none => some content
  else some ((("use tauri::\x7bManager, Emitter\x7d;\n").toList) ++ content)

theorem tryT_split {cs g r : LC} (h : tryT cs = some (g, r)) :
    cs = tauriHead ++ g ++ '\x7d' :: ';' :: r := by
  unfold tryT at h
  by_cases hp : tauriHead.isPrefixOf cs = true
  · rw [if_pos hp] at h
    obtain ⟨t, ht⟩ := isPrefixOf_iff_append.mp hp
    have hdrop : cs.drop tauriHead.length = t := by
      rw [ht, List.drop_left]
    rw [hdrop] at h
    split at h
    · rename_i rest heq
      have hg : t.takeWhile (fun c => !(c == '\x7d')) = g ∧ rest = r := by
        cases h
        exact ⟨rfl, rfl⟩
      have hsplit := List.takeWhile_append_dropWhile
        (p := fun c => !(c == '\x7d')) (l := t)
      rw [heq, hg.1, hg.2] at hsplit
      rw [ht, ← hsplit]
      simp
    · cases h
  · rw [if_neg hp] at h
    cases h

theorem scanT_split {cs p g r : LC} (h : scanT cs = some (p, g, r)) :
    cs = p ++ tauriHead ++ g ++ '\x7d' :: ';' :: r := by
  induction cs generalizing p with
  | nil => cases h
  | cons c cs ih =>
    unfold scanT at h
    cases ht : tryT (c :: cs) with
    | some gr =>
      obtain ⟨g0, r0⟩ := gr
      rw [ht] at h
      have hps : p = [] ∧ g0 = g ∧ r0 = r := by
        cases h
        exact ⟨rfl, rfl, rfl⟩
      have hts := tryT_split (g := g0) (r := r0) ht
      rw [hps.2.1, hps.2.2] at hts
      rw [hps.1, hts]
      simp
    | none =>
      rw [ht] at h
      cases hs : scanT cs with
      | none => rw [hs] at h; cases h
      | some pmr =>
        obtain ⟨p0, g0, r0⟩ := pmr
        rw [hs] at h
        have hps : c :: p0 = p ∧ g0 = g ∧ r0 = r := by
          cases h
          exact ⟨rfl, rfl, rfl⟩
        rw [hps.2.1, hps.2.2] at hs
        have := ih (p := p0) hs
        rw [← hps.1, this]
        simp

theorem scanT_some_length {cs p g r : LC} (h : scanT cs = some (p, g, r)) :
    r.length < cs.length := by
  have hl := congrArg List.length (scanT_split h)
  simp only [List.length_append, List.length_cons] at hl
  omega

theorem subTF_congr {rep : LC} {n m : Nat} {cs : LC}
    (hn : cs.length ≤ n) (hm : cs.length ≤ m) :
    subTF rep n cs = subTF rep m cs := by
  induction n generalizing cs m with
  | zero =>
    have hcs : cs = [] := List.length_eq_zero.mp (Nat.le_zero.mp hn)
    subst hcs
    cases m with
    | zero => rfl
    | succ m => rfl
  | succ n ih =>
    cases m with
    | zero =>
      have hcs : cs = [] := List.length_eq_zero.mp (Nat.le_zero.mp hm)
      subst hcs
      rfl
    | succ m =>
      show (match scanT cs with
        | none => cs
        | some pmr => pmr.1 ++ rep ++ subTF rep n pmr.2.2) =
        (match scanT cs with
        | none => cs
        | some pmr => pmr.1 ++ rep ++ subTF rep m pmr.2.2)
      cases hs : scanT cs with
      | none => rfl
      | some pmr =>
        obtain ⟨p0, g0, r0⟩ := pmr
        have hlen := scanT_some_length hs
        show p0 ++ rep ++ subTF rep n r0 = p0 ++ rep ++ subTF rep m r0
        have hn' : r0.length ≤ n := by omega
        have hm' : r0.length ≤ m := by omega
        rw [ih hn' hm']

theorem subTLit_none {rep cs : LC} (h : scanT cs = none) : subTLit rep cs = cs := by
  cases cs with
  | nil => rfl
  | cons c cs =>
    show (match scanT (c :: cs) with
      | none => c :: cs
      | some pmr => pmr.1 ++ rep ++ subTF rep cs.length pmr.2.2) = c :: cs
    rw [h]

theorem subTLit_some {rep cs p g r : LC} (h : scanT cs = some (p, g, r)) :
    subTLit rep cs = p ++ rep ++ subTLit rep r := by
  cases cs with
  | nil => cases h
  | cons c cs =>
    have hlen := scanT_some_length h
    show (match scanT (c :: cs) with
      | none => c :: cs
      | some pmr => pmr.1 ++ rep ++ subTF rep cs.length pmr.2.2) = _
    rw [h]
    show p ++ rep ++ subTF rep cs.length r = p ++ rep ++ subTLit rep r
    simp only [List.length_cons] at hlen
    unfold subTLit
    congr 1
    exact subTF_congr (by omega) (le_refl r.length)

theorem parseTmplF_litfree : ∀ (n : Nat) (rep : LC), rep.length ≤ n →
    (∀ c ∈ rep, (c == '\\') = false) →
    parseTmplF n rep = some (rep.map TItem.lit) := by
  intro n
  induction n with
  | zero =>
    intro rep hle _
    have h0 : rep = [] := List.length_eq_zero.mp (Nat.le_zero.mp hle)
    subst h0
    rfl
  | succ n ih =>
    intro rep hle hfree
    cases rep with
    | nil => rfl
    | cons c cs =>
      have hc : (c == '\\') = false := hfree c (List.mem_cons_self c cs)
      show (if c == '\\' then _ else
        (parseTmplF n cs).map (fun its => TItem.lit c :: its)) = _
      rw [hc]
      simp only [Bool.false_eq_true, if_false]
      simp only [List.length_cons] at hle
      rw [ih cs (by omega) (fun x hx => hfree x (List.mem_cons_of_mem c hx))]
      rfl

theorem expandT_lit (g : LC) : ∀ (rep : LC), expandT g (rep.map TItem.lit) = rep := by
  intro rep
  induction rep with
  | nil => rfl
  | cons c cs ih =>
    show c :: expandT g (cs.map TItem.lit) = c :: cs
    rw [ih]

theorem subTE_lit (rep : LC) : ∀ (n : Nat) (cs : LC),
    subTE (rep.map TItem.lit) n cs = subTF rep n cs := by
  intro n
  induction n with
  | zero => intro cs; rfl
  | succ n ih =>
    intro cs
    show (match scanT cs with
      | none => cs
      | some pmr => pmr.1 ++ expandT pmr.2.1 (rep.map TItem.lit) ++
          subTE (rep.map TItem.lit) n pmr.2.2) =
      (match scanT cs with
      | none => cs
      | some pmr => pmr.1 ++ rep ++ subTF rep n pmr.2.2)
    cases hs : scanT cs with
    | none => rfl
    | some pmr =>
      obtain ⟨p0, g0, r0⟩ := pmr
      show p0 ++ expandT g0 (rep.map TItem.lit) ++ subTE (rep.map TItem.lit) n r0 =
        p0 ++ rep ++ subTF rep n r0
      rw [expandT_lit, ih]

theorem subT_of_litfree {rep : LC} (hfree : ∀ c ∈ rep, (c == '\\') = false)
    (cs : LC) : subT rep cs = some (subTLit rep cs) := by
  unfold subT parseTmpl
  rw [parseTmplF_litfree rep.length rep (le_refl _) hfree]
  show some (subTE (rep.map TItem.lit) cs.length cs) = _
  rw [subTE_lit]
  rfl

theorem mem_pyStrip {c : Char} {g : LC} (h : c ∈ pyStrip g) : c ∈ g := by
  unfold pyStrip at h
  rw [List.mem_reverse] at h
  have h2 := (List.dropWhile_suffix (fun x : Char => x.isWhitespace)).sublist.mem h
  rw [List.mem_reverse] at h2
  exact (List.dropWhile_suffix (fun x : Char => x.isWhitespace)).sublist.mem h2

theorem mkNewImport_litfree {g : LC} (h : ∀ c ∈ g, (c == '\\') = false) :
    ∀ c ∈ mkNewImport g, (c == '\\') = false := by
  have h0 : ∀ c ∈ pyStrip g, (c == '\\') = false :=
    fun c hc => h c (mem_pyStrip hc)
  have hman : ∀ c ∈ ((", Manager").toList : LC), (c == '\\') = false := by decide
  have hemi : ∀ c ∈ ((", Emitter").toList : LC), (c == '\\') = false := by decide
  have hhead : ∀ c ∈ (("use tauri::\x7b").toList : LC), (c == '\\') = false := by
    decide
  have htail : ∀ c ∈ (("\x7d;").toList : LC), (c == '\\') = false := by decide
  have hi1 : ∀ c ∈ (if hasSub (("Manager").toList) (pyStrip g) then pyStrip g
      else pyStrip g ++ (", Manager").toList), (c == '\\') = false := by
    intro c hc
    by_cases hb : hasSub (("Manager").toList) (pyStrip g) = true
    · rw [if_pos hb] at hc
      exact h0 c hc
    · rw [if_neg hb] at hc
      rcases List.mem_append.mp hc with hm | hm
      · exact h0 c hm
      · exact hman c hm
  intro c hc
  unfold mkNewImport at hc
  simp only at hc
  rcases List.mem_append.mp hc with hm | hm
  · rcases List.mem_append.mp hm with hm2 | hm2
    · exact hhead c hm2
    · by_cases hb : hasSub (("Emitter").toList)
          (if hasSub (("Manager").toList) (pyStrip g) then pyStrip g
           else pyStrip g ++ (", Manager").toList) = true
      · rw [if_pos hb] at hm2
        exact hi1 c hm2
      · rw [if_neg hb] at hm2
        rcases List.mem_append.mp hm2 with hm3 | hm3
        · exact hi1 c hm3
        · exact hemi c hm3
  · exact htail c hm

theorem hasSub_tauriUse_of_scanT {cs p g r : LC}
    (h : scanT cs = some (p, g, r)) : hasSub tauriUse cs = true := by
  have hsplit := scanT_split h
  have hhead : tauriHead = tauriUse ++ ['\x7b'] := by decide
  rw [hhead] at hsplit
  refine hasSub_iff_parts.mpr ⟨p, '\x7b' :: g ++ '\x7d' :: ';' :: r, ?_⟩
  rw [hsplit]
  simp

/-- C8 counterexample: `re.sub` processes a string replacement as a
template, so when the first statement's import list itself contains the
backreference `\1`, every match is rewritten with its own capture — the
second statement keeps its own import list `B`, instead of being
rewritten to one identical string built from the first capture as the
claim states. -/
theorem c8_counterexample :
    fix_model_disability_imports
        (("use tauri::\x7b\\1\x7d;\nuse tauri::\x7bB\x7d;\n").toList) =
      some (("use tauri::\x7b\\1, Manager, Emitter\x7d;\nuse tauri::\x7bB, Manager, Emitter\x7d;\n").toList)
    ∧ (("use tauri::\x7b\\1, Manager, Emitter\x7d;\nuse tauri::\x7bB, Manager, Emitter\x7d;\n").toList : LC)
      ≠ [] ++ mkNewImport (("\\1").toList) ++
          ((("\n").toList) ++ mkNewImport (("\\1").toList) ++ (("\n").toList)) := by
  constructor
  · decide
  · decide

/-- C8: in `fix_model_disability_imports`, when the text contains two or
more braced tauri import statements and the first statement's captured
list contains no backslash, `re.sub` rewrites every one of them to
the single identical statement built from the first capture (augmented
with Manager/Emitter), discarding the import lists of the later
statements. -/
theorem c8_first_capture_wins (cs p1 g1 r1 p2 g2 r2 : LC)
    (hbs : ∀ c ∈ g1, (c == '\\') = false)
    (h1 : scanT cs = some (p1, g1, r1))
    (h2 : scanT r1 = some (p2, g2, r2)) :
    fix_model_disability_imports cs =
      some (p1 ++ mkNewImport g1 ++
        (p2 ++ mkNewImport g1 ++ subTLit (mkNewImport g1) r2)) := by
  unfold fix_model_disability_imports
  rw [hasSub_tauriUse_of_scanT h1, if_pos rfl, h1]
  show subT (mkNewImport g1) cs = _
  rw [subT_of_litfree (mkNewImport_litfree hbs) cs,
    subTLit_some h1, subTLit_some h2]

/-- C8 witness: on a text with two distinct backslash-free braced tauri
statements, both are rewritten from the first capture and the
second capture is discarded. -/
theorem c8_witness :
    fix_model_disability_imports
        (("use tauri::\x7bState\x7d;\nuse tauri::\x7bAppHandle\x7d;\n").toList) =
      some ([] ++ mkNewImport (("State").toList) ++
        ((("\n").toList) ++ mkNewImport (("State").toList) ++
          subTLit (mkNewImport (("State").toList)) (("\n").toList))) :=
  c8_first_capture_wins _ [] (("State").toList)
    (("\nuse tauri::\x7bAppHandle\x7d;\n").toList)
    (("\n").toList) (("AppHandle").toList) (("\n").toList)
    (by decide) (by decide) (by decide)

/-- C10: in `fix_model_disability_imports`, when the text contains
`use tauri::` but no braced tauri import statement matches the regex,
the text is returned byte-for-byte unchanged — neither the augmentation
branch nor the prepend branch runs, and `re.sub` is never invoked. -/
theorem c10_no_match_unchanged (cs : LC)
    (hin : hasSub tauriUse cs = true) (hno : scanT cs = none) :
    fix_model_disability_imports cs = some cs := by
  unfold fix_model_disability_imports
  rw [hin, if_pos rfl, hno]

/-- C10 witness: a non-braced tauri import is left unchanged. -/
theorem c10_witness :
    fix_model_disability_imports (("use tauri::Manager;\n").toList) =
      some (("use tauri::Manager;\n").toList) :=
  c10_no_match_unchanged (("use tauri::Manager;\n").toList) (by decide) (by decide)

/-! ## Embedding of the regex fallback of fix_resolution_type
(fix_remaining_errors.py)

The fallback substitutes every match of the regex whose literal parts are
`#[derive(`, a class of characters other than a closing bracket, the
closing `)]`, a whitespace run, and `pub enum ResolutionType` followed by
an opening brace, using the callback `add_partialeq`.  The callback
returns the match unchanged when it already contains `PartialEq` and
otherwise replaces its `)]` with `, PartialEq)]`.  The character class
cannot cross a closing bracket, so the matcher is deterministic: the
captured derive arguments run to the first closing bracket, whose
preceding character must be a closing parenthesis. -/

/-- The literal head `#[derive(` of the derive regex. -/
def deriveHead : LC := ("#[derive(").toList

/-- The literal tail of the derive regex: `pub enum ResolutionType`
followed by an opening brace. -/
def enumTail : LC := ("pub enum ResolutionType \x7b").toList

/-- The literal `PartialEq` tested by the callback's `in` check. -/
def peLit : LC := ("PartialEq").toList

theorem dropWhile_head_false {p : Char → Bool} {t : LC} {c : Char} {u : LC}
    (h : t.dropWhile p = c :: u) : p c = false := by
  induction t with
  | nil => cases h
  | cons a t ih =>
    rw [List.dropWhile_cons] at h
    by_cases hp : p a = true
    · rw [if_pos hp] at h
      exact ih h
    · rw [if_neg hp] at h
      cases h
      exact Bool.not_eq_true _ ▸ (by simpa using hp)

theorem dropLast_append_of_getLast? {l : LC} {x : Char}
    (h : l.getLast? = some x) : l.dropLast ++ [x] = l := by
  have h2 : l ≠ [] := by
    intro he
    subst he
    simp at h
  have h3 := List.dropLast_append_getLast h2
  rw [List.getLast?_eq_getLast l h2, Option.some.injEq] at h
  rw [← h]
  exact h3

/-- Deterministic matcher for the derive regex at the start of the text:
after `#[derive(`, the pre-bracket segment runs to the first closing
bracket and must end in a closing parenthesis; after the bracket, a
whitespace run and the literal tail.  Returns the whole match (the
regex's single capture group) and the rest after it. -/
def tryR (cs : LC) : Option (LC × LC) :=
  if deriveHead.isPrefixOf cs then
    if ((cs.drop deriveHead.length).takeWhile (fun c => !(c == ']'))).getLast?
        == some ')' then
      if ((cs.drop deriveHead.length).dropWhile (fun c => !(c == ']'))).isEmpty
      then none
      else
        if enumTail.isPrefixOf
            (((cs.drop deriveHead.length).dropWhile
                (fun c => !(c == ']'))).tail.dropWhile (fun c => c.isWhitespace))
        then
          some (deriveHead ++
              (cs.drop deriveHead.length).takeWhile (fun c => !(c == ']')) ++
              ']' :: ((cs.drop deriveHead.length).dropWhile
                  (fun c => !(c == ']'))).tail.takeWhile (fun c => c.isWhitespace) ++
              enumTail,
            (((cs.drop deriveHead.length).dropWhile
                (fun c => !(c == ']'))).tail.dropWhile
                  (fun c => c.isWhitespace)).drop enumTail.length)
        else none
    else none
  else none

/-- Left-to-right scanner for the derive regex, as performed by `re.sub`:
returns the text before the first match, the match, and the rest. -/
def scanR : LC → Option (LC × LC × LC)
  | [] => none
  | c :: cs =>
    match tryR (c :: cs) with
    | some mr => some ([], mr.1, mr.2)
    | none =>
      match scanR cs with
      | some pmr => some (c :: pmr.1, pmr.2.1, pmr.2.2)
      | none => none

/-- The Python callback `add_partialeq`: a match already containing
`PartialEq` is returned unchanged; otherwise its `)]` is replaced by
`, PartialEq)]`. -/
def addPartialEq (m : LC) : LC :=
  if hasSub peLit m then m
  else pyReplace m ((")]").toList) ((", PartialEq)]").toList)

/-- Fuel-driven worker for `subR`. -/
def subRF : Nat → LC → LC
  | 0, cs => cs
  | fuel + 1, cs =>
    match scanR cs with
    | none => cs
    | some pmr => pmr.1 ++ addPartialEq pmr.2.1 ++ subRF fuel pmr.2.2

/-- Python's `re.sub` of the derive regex with the `add_partialeq`
callback: rewrites every non-overlapping match, left to right. -/
def subR (cs : LC) : LC := subRF cs.length cs

/-- Fuel-driven worker for `matchesR`. -/
def matchesRF : Nat → LC → List LC
  | 0, _ => []
  | fuel + 1, cs =>
    match scanR cs with
    | none => []
    | some pmr => pmr.2.1 :: matchesRF fuel pmr.2.2

/-- The successive non-overlapping matches of the derive regex in a text,
in scan order. -/
def matchesR (cs : LC) : List LC := matchesRF cs.length cs

/-- Content transformation of `fix_resolution_type` in
`fix_remaining_errors.py`: first the exact literal replacement; when the
literal block is absent, the regex fallback `subR`. -/
def fix_resolution_type (content : LC) : LC :=
  if hasSub (("#[derive(Debug, Clone, Serialize, Deserialize)]\npub enum ResolutionType \x7b").toList) content then
    pyReplace content
      (("#[derive(Debug, Clone, Serialize, Deserialize)]\npub enum ResolutionType \x7b").toList)
      (("#[derive(Debug, Clone, Serialize, Deserialize, PartialEq)]\npub enum ResolutionType \x7b").toList)
  else subR content

/-- The canonical shape of a derive-regex match: the head, the bracket-free
derive arguments, the closing `)]`, a whitespace run, and the tail. -/
def mkMatch (A W : LC) : LC := deriveHead ++ A ++ ')' :: ']' :: W ++ enumTail

theorem tryR_build {A W : LC} (r : LC)
    (hA : ∀ a ∈ A, (!(a == ']')) = true)
    (hW : ∀ w ∈ W, w.isWhitespace = true) :
    tryR (mkMatch A W ++ r) = some (mkMatch A W, r) := by
  have hshape : mkMatch A W ++ r
      = deriveHead ++ ((A ++ [')']) ++ ']' :: (W ++ (enumTail ++ r))) := by
    simp [mkMatch]
  have hpre : deriveHead.isPrefixOf (mkMatch A W ++ r) = true :=
    isPrefixOf_iff_append.mpr ⟨_, hshape⟩
  have hdrop : (mkMatch A W ++ r).drop deriveHead.length
      = (A ++ [')']) ++ ']' :: (W ++ (enumTail ++ r)) := by
    rw [hshape, List.drop_left]
  have hZall : ∀ a ∈ A ++ [')'], (!(a == ']')) = true := by
    intro a ha
    rcases List.mem_append.mp ha with h | h
    · exact hA a h
    · rw [List.mem_singleton.mp h]
      rfl
  have htake : ((mkMatch A W ++ r).drop deriveHead.length).takeWhile
      (fun c => !(c == ']')) = A ++ [')'] := by
    rw [hdrop, List.takeWhile_append_of_pos hZall,
      List.takeWhile_cons_of_neg (by decide), List.append_nil]
  have hdropw : ((mkMatch A W ++ r).drop deriveHead.length).dropWhile
      (fun c => !(c == ']')) = ']' :: (W ++ (enumTail ++ r)) := by
    rw [hdrop, List.dropWhile_append_of_pos hZall,
      List.dropWhile_cons_of_neg (by decide)]
  have hpt : enumTail ++ r = 'p' :: ((("ub enum ResolutionType \x7b").toList) ++ r) := rfl
  have hWtake : (W ++ (enumTail ++ r)).takeWhile (fun c => c.isWhitespace) = W := by
    rw [List.takeWhile_append_of_pos hW, hpt,
      List.takeWhile_cons_of_neg (by decide), List.append_nil]
  have hWdrop : (W ++ (enumTail ++ r)).dropWhile (fun c => c.isWhitespace)
      = enumTail ++ r := by
    rw [List.dropWhile_append_of_pos hW, hpt,
      List.dropWhile_cons_of_neg (by decide)]
  unfold tryR
  rw [if_pos hpre, htake, hdropw]
  rw [if_pos (show ((A ++ [')']).getLast? == some ')') = true by
    rw [List.getLast?_concat]; rfl)]
  rw [if_neg (show ¬ ((']' :: (W ++ (enumTail ++ r))).isEmpty = true) by
    simp)]
  have htl : (']' :: (W ++ (enumTail ++ r))).tail = W ++ (enumTail ++ r) := rfl
  rw [htl, hWdrop, hWtake]
  rw [if_pos (isPrefixOf_iff_append.mpr ⟨r, rfl⟩)]
  rw [List.drop_left]
  have hm : deriveHead ++ (A ++ [')']) ++ ']' :: W ++ enumTail = mkMatch A W := by
    simp [mkMatch]
  rw [hm]

theorem tryR_some_shape {cs m r : LC} (h : tryR cs = some (m, r)) :
    ∃ A W, (∀ a ∈ A, (!(a == ']')) = true) ∧ (∀ w ∈ W, w.isWhitespace = true) ∧
      m = mkMatch A W ∧ cs = mkMatch A W ++ r := by
  unfold tryR at h
  by_cases hpre : deriveHead.isPrefixOf cs = true
  case neg =>
    rw [if_neg hpre] at h
    cases h
  rw [if_pos hpre] at h
  by_cases hg : (((cs.drop deriveHead.length).takeWhile
      (fun c => !(c == ']'))).getLast? == some ')') = true
  case neg =>
    rw [if_neg hg] at h
    cases h
  rw [if_pos hg] at h
  by_cases he : ((cs.drop deriveHead.length).dropWhile
      (fun c => !(c == ']'))).isEmpty = true
  case pos =>
    rw [if_pos he] at h
    cases h
  rw [if_neg he] at h
  by_cases hT : enumTail.isPrefixOf
      (((cs.drop deriveHead.length).dropWhile
        (fun c => !(c == ']'))).tail.dropWhile (fun c => c.isWhitespace)) = true
  case neg =>
    rw [if_neg hT] at h
    cases h
  rw [if_pos hT] at h
  set Z := (cs.drop deriveHead.length).takeWhile (fun c => !(c == ']')) with hZdef
  set u := (cs.drop deriveHead.length).dropWhile (fun c => !(c == ']')) with hudef
  have hm : m = deriveHead ++ Z ++
      ']' :: u.tail.takeWhile (fun c => c.isWhitespace) ++ enumTail ∧
      r = (u.tail.dropWhile (fun c => c.isWhitespace)).drop enumTail.length := by
    cases h
    exact ⟨rfl, rfl⟩
  obtain ⟨hm1, hm2⟩ := hm
  have hglast : Z.getLast? = some ')' := by
    simpa using hg
  have hZsplit := dropLast_append_of_getLast? hglast
  have hZall : ∀ a ∈ Z, (!(a == ']')) = true := by
    intro a ha
    rw [hZdef] at ha
    have := List.mem_takeWhile_imp (p := fun c => !(c == ']')) ha
    simpa using this
  have hAall : ∀ a ∈ Z.dropLast, (!(a == ']')) = true := by
    intro a ha
    apply hZall
    rw [← hZsplit]
    exact List.mem_append_left _ ha
  obtain ⟨c0, ut, hu2⟩ : ∃ c0 ut, u = c0 :: ut := by
    cases hu : u with
    | nil =>
      rw [hu] at he
      exact absurd rfl he
    | cons c0 ut => exact ⟨c0, ut, rfl⟩
  have hc0 : c0 = ']' := by
    have hpc := dropWhile_head_false (hudef ▸ hu2)
    simpa using hpc
  subst hc0
  rw [hu2] at hm1 hm2 hT
  simp only [List.tail_cons] at hm1 hm2 hT
  have hWall : ∀ w ∈ ut.takeWhile (fun c => c.isWhitespace),
      w.isWhitespace = true := by
    intro w hw
    have := List.mem_takeWhile_imp (p := fun c : Char => c.isWhitespace) hw
    simpa using this
  obtain ⟨t0, ht0⟩ := isPrefixOf_iff_append.mp hpre
  have htt0 : cs.drop deriveHead.length = t0 := by
    rw [ht0, List.drop_left]
  obtain ⟨r', hr'⟩ := isPrefixOf_iff_append.mp hT
  have hrr : r = r' := by
    rw [hm2, hr', List.drop_left]
  have hsplit1 : Z ++ u = cs.drop deriveHead.length :=
    List.takeWhile_append_dropWhile _ _
  have hsplit2 : ut.takeWhile (fun c => c.isWhitespace) ++
      ut.dropWhile (fun c => c.isWhitespace) = ut :=
    List.takeWhile_append_dropWhile _ _
  have hut : ut = ut.takeWhile (fun c => c.isWhitespace) ++ (enumTail ++ r) := by
    rw [← hrr] at hr'
    conv_lhs => rw [← hsplit2]
    rw [hr']
  have hcs : cs = deriveHead ++ (Z ++ (']' :: ut)) := by
    rw [← hu2, hsplit1, htt0, ht0]
  set A := Z.dropLast with hAdef
  refine ⟨A, ut.takeWhile (fun c => c.isWhitespace), hAall, hWall, ?_, ?_⟩
  · rw [hm1, mkMatch, ← hZsplit]
    simp
  · rw [hcs, mkMatch, ← hZsplit]
    rw [show (']' :: ut : LC) =
      ']' :: (ut.takeWhile (fun c => c.isWhitespace) ++ (enumTail ++ r)) by rw [← hut]]
    simp

theorem tryR_consumes {cs m r : LC} (h : tryR cs = some (m, r)) :
    cs = m ++ r ∧ m ≠ [] := by
  obtain ⟨A, W, -, -, hm, hcs⟩ := tryR_some_shape h
  refine ⟨by rw [hcs, hm], ?_⟩
  rw [hm, mkMatch]
  simp [deriveHead]

theorem scanR_char {cs p m r : LC} (h : scanR cs = some (p, m, r)) :
    cs = p ++ m ++ r ∧ tryR (m ++ r) = some (m, r) ∧
      ∀ p1 p2, p = p1 ++ p2 → p2 ≠ [] → tryR (p2 ++ m ++ r) = none := by
  induction cs generalizing p with
  | nil => cases h
  | cons c cs ih =>
    unfold scanR at h
    cases ht : tryR (c :: cs) with
    | some mr =>
      obtain ⟨m0, r0⟩ := mr
      rw [ht] at h
      have hps : p = [] ∧ m0 = m ∧ r0 = r := by
        cases h
        exact ⟨rfl, rfl, rfl⟩
      obtain ⟨hp0, hm0, hr0⟩ := hps
      subst hp0
      subst hm0
      subst hr0
      have hc := (tryR_consumes ht).1
      refine ⟨by simp only [List.nil_append]; exact hc, by rw [← hc]; exact ht, ?_⟩
      intro p1 p2 hp hne
      exact absurd (List.append_eq_nil.mp hp.symm).2 hne
    | none =>
      rw [ht] at h
      cases hs : scanR cs with
      | none =>
        rw [hs] at h
        cases h
      | some pmr =>
        obtain ⟨p0, m0, r0⟩ := pmr
        rw [hs] at h
        have hps : c :: p0 = p ∧ m0 = m ∧ r0 = r := by
          cases h
          exact ⟨rfl, rfl, rfl⟩
        obtain ⟨hp0, hm0, hr0⟩ := hps
        subst hm0
        subst hr0
        obtain ⟨ih1, ih2, ih3⟩ := ih hs
        refine ⟨by rw [← hp0, ih1]; rfl, ih2, ?_⟩
        intro p1 p2 hp hne
        rw [← hp0] at hp
        cases p1 with
        | nil =>
          rw [List.nil_append] at hp
          rw [← hp]
          rw [show ((c :: p0) ++ m0 ++ r0 : LC) = c :: cs by rw [ih1]; rfl]
          exact ht
        | cons a p1' =>
          rw [List.cons_append] at hp
          injection hp with hac hp'
          exact ih3 p1' p2 hp' hne

theorem scanR_build {p m r : LC} (hm : tryR (m ++ r) = some (m, r))
    (hfail : ∀ p1 p2, p = p1 ++ p2 → p2 ≠ [] → tryR (p2 ++ m ++ r) = none) :
    scanR (p ++ m ++ r) = some (p, m, r) := by
  induction p with
  | nil =>
    have hne : m ≠ [] := (tryR_consumes hm).2
    rw [List.nil_append]
    cases hmr : m ++ r with
    | nil =>
      exact absurd (List.append_eq_nil.mp hmr).1 hne
    | cons c cs' =>
      show (match tryR (c :: cs') with
        | some mr => some (([] : LC), mr.1, mr.2)
        | none =>
          match scanR cs' with
          | some pmr => some (c :: pmr.1, pmr.2.1, pmr.2.2)
          | none => none) = some ([], m, r)
      rw [← hmr, hm]
  | cons a p' ih =>
    have hfa : tryR ((a :: p') ++ m ++ r) = none := hfail [] (a :: p') rfl (by simp)
    have hshape : (a :: p') ++ m ++ r = a :: (p' ++ m ++ r) := by simp
    rw [hshape]
    have hfa' : tryR (a :: (p' ++ m ++ r)) = none := by
      rw [← hshape]
      exact hfa
    show (match tryR (a :: (p' ++ m ++ r)) with
      | some mr => some (([] : LC), mr.1, mr.2)
      | none =>
        match scanR (p' ++ m ++ r) with
        | some pmr => some (a :: pmr.1, pmr.2.1, pmr.2.2)
        | none => none) = some (a :: p', m, r)
    rw [hfa']
    have hrec := ih (fun p1 p2 hp hne => hfail (a :: p1) p2 (by rw [hp]; rfl) hne)
    rw [hrec]

theorem scanR_consumes {cs p m r : LC} (h : scanR cs = some (p, m, r)) :
    cs = p ++ m ++ r ∧ m ≠ [] := by
  obtain ⟨h1, h2, -⟩ := scanR_char h
  exact ⟨h1, (tryR_consumes h2).2⟩

theorem scanR_some_length {cs p m r : LC} (h : scanR cs = some (p, m, r)) :
    r.length < cs.length := by
  obtain ⟨h1, h2⟩ := scanR_consumes h
  have hl := congrArg List.length h1
  simp only [List.length_append] at hl
  have hm : 0 < m.length := List.length_pos.mpr h2
  omega

theorem subRF_congr {n m0 : Nat} {cs : LC}
    (hn : cs.length ≤ n) (hm : cs.length ≤ m0) :
    subRF n cs = subRF m0 cs := by
  induction n generalizing cs m0 with
  | zero =>
    have hcs : cs = [] := List.length_eq_zero.mp (Nat.le_zero.mp hn)
    subst hcs
    cases m0 with
    | zero => rfl
    | succ m0 => rfl
  | succ n ih =>
    cases m0 with
    | zero =>
      have hcs : cs = [] := List.length_eq_zero.mp (Nat.le_zero.mp hm)
      subst hcs
      rfl
    | succ m0 =>
      show (match scanR cs with
        | none => cs
        | some pmr => pmr.1 ++ addPartialEq pmr.2.1 ++ subRF n pmr.2.2) =
        (match scanR cs with
        | none => cs
        | some pmr => pmr.1 ++ addPartialEq pmr.2.1 ++ subRF m0 pmr.2.2)
      cases hs : scanR cs with
      | none => rfl
      | some pmr =>
        obtain ⟨p0, g0, r0⟩ := pmr
        have hlen := scanR_some_length hs
        show p0 ++ addPartialEq g0 ++ subRF n r0 = p0 ++ addPartialEq g0 ++ subRF m0 r0
        have hn' : r0.length ≤ n := by omega
        have hm' : r0.length ≤ m0 := by omega
        rw [ih hn' hm']

theorem subR_none {cs : LC} (h : scanR cs = none) : subR cs = cs := by
  cases cs with
  | nil => rfl
  | cons c cs =>
    show (match scanR (c :: cs) with
      | none => c :: cs
      | some pmr => pmr.1 ++ addPartialEq pmr.2.1 ++ subRF cs.length pmr.2.2) = c :: cs
    rw [h]

theorem subR_some {cs p m r : LC} (h : scanR cs = some (p, m, r)) :
    subR cs = p ++ addPartialEq m ++ subR r := by
  cases cs with
  | nil => cases h
  | cons c cs =>
    have hlen := scanR_some_length h
    show (match scanR (c :: cs) with
      | none => c :: cs
      | some pmr => pmr.1 ++ addPartialEq pmr.2.1 ++ subRF cs.length pmr.2.2) = _
    rw [h]
    show p ++ addPartialEq m ++ subRF cs.length r = p ++ addPartialEq m ++ subR r
    simp only [List.length_cons] at hlen
    unfold subR
    congr 1
    exact subRF_congr (by omega) (le_refl r.length)

theorem matchesRF_congr {n m0 : Nat} {cs : LC}
    (hn : cs.length ≤ n) (hm : cs.length ≤ m0) :
    matchesRF n cs = matchesRF m0 cs := by
  induction n generalizing cs m0 with
  | zero =>
    have hcs : cs = [] := List.length_eq_zero.mp (Nat.le_zero.mp hn)
    subst hcs
    cases m0 with
    | zero => rfl
    | succ m0 => rfl
  | succ n ih =>
    cases m0 with
    | zero =>
      have hcs : cs = [] := List.length_eq_zero.mp (Nat.le_zero.mp hm)
      subst hcs
      rfl
    | succ m0 =>
      show (match scanR cs with
        | none => ([] : List LC)
        | some pmr => pmr.2.1 :: matchesRF n pmr.2.2) =
        (match scanR cs with
        | none => ([] : List LC)
        | some pmr => pmr.2.1 :: matchesRF m0 pmr.2.2)
      cases hs : scanR cs with
      | none => rfl
      | some pmr =>
        obtain ⟨p0, g0, r0⟩ := pmr
        have hlen := scanR_some_length hs
        show g0 :: matchesRF n r0 = g0 :: matchesRF m0 r0
        have hn' : r0.length ≤ n := by omega
        have hm' : r0.length ≤ m0 := by omega
        rw [ih hn' hm']

theorem matchesR_none {cs : LC} (h : scanR cs = none) : matchesR cs = [] := by
  cases cs with
  | nil => rfl
  | cons c cs =>
    show (match scanR (c :: cs) with
      | none => ([] : List LC)
      | some pmr => pmr.2.1 :: matchesRF cs.length pmr.2.2) = []
    rw [h]

theorem matchesR_some {cs p m r : LC} (h : scanR cs = some (p, m, r)) :
    matchesR cs = m :: matchesR r := by
  cases cs with
  | nil => cases h
  | cons c cs =>
    have hlen := scanR_some_length h
    show (match scanR (c :: cs) with
      | none => ([] : List LC)
      | some pmr => pmr.2.1 :: matchesRF cs.length pmr.2.2) = _
    rw [h]
    show m :: matchesRF cs.length r = m :: matchesR r
    simp only [List.length_cons] at hlen
    unfold matchesR
    congr 1
    exact matchesRF_congr (by omega) (le_refl r.length)

/-- The closing `)]` replaced by the callback. -/
def cbL : LC := (")]").toList

/-- The callback's replacement `, PartialEq)]`. -/
def pcbL : LC := (", PartialEq)]").toList

theorem pyReplace_cb_append_free {xs ys : LC}
    (hx : ∀ x ∈ xs, (x == ']') = false) (hy : ys.head? ≠ some ']') :
    pyReplace (xs ++ ys) cbL pcbL = xs ++ pyReplace ys cbL pcbL := by
  induction xs with
  | nil => simp
  | cons x xs ih =>
    have hpre : cbL.isPrefixOf (x :: (xs ++ ys)) = false := by
      rw [Bool.eq_false_iff]
      intro hp
      obtain ⟨t, ht⟩ := isPrefixOf_iff_append.mp hp
      have hsecond : (xs ++ ys).head? = some ']' := by
        have := congrArg (fun l => l.drop 1) ht
        simp only [List.drop_one, List.tail_cons] at this
        rw [show (cbL ++ t : LC) = ')' :: ']' :: t from rfl] at ht
        injection ht with h1 h2
        rw [h2]
        rfl
      cases hxs : xs with
      | nil =>
        rw [hxs] at hsecond
        simp only [List.nil_append] at hsecond
        exact hy hsecond
      | cons x2 xs2 =>
        rw [hxs] at hsecond
        simp only [List.cons_append, List.head?_cons, Option.some.injEq] at hsecond
        have := hx x2 (by rw [hxs]; exact List.mem_cons_of_mem _ (List.mem_cons_self _ _))
        rw [hsecond] at this
        simp at this
    show pyReplace (x :: (xs ++ ys)) cbL pcbL = x :: (xs ++ pyReplace ys cbL pcbL)
    rw [show (cbL : LC) = ')' :: (']' :: []) from rfl] at hpre ⊢
    rw [pyReplace_cons]
    rw [if_neg (by rw [hpre]; exact Bool.false_ne_true)]
    rw [show (')' :: (']' :: []) : LC) = cbL from rfl]
    rw [ih (fun a ha => hx a (List.mem_cons_of_mem _ ha))]

theorem pyReplace_cb_id {zs : LC} (hz : ∀ x ∈ zs, (x == ']') = false) :
    pyReplace zs cbL pcbL = zs := by
  have h := @pyReplace_cb_append_free zs [] hz (by simp)
  rw [show pyReplace ([] : LC) cbL pcbL = ([] : LC) from rfl, List.append_nil] at h
  simpa using h

theorem addPartialEq_keeps {m : LC} (h : hasSub peLit m = true) :
    addPartialEq m = m := by
  unfold addPartialEq
  rw [if_pos h]

theorem addPartialEq_insert {A W : LC}
    (hA : ∀ a ∈ A, (!(a == ']')) = true) (hW : ∀ w ∈ W, w.isWhitespace = true)
    (hno : hasSub peLit (mkMatch A W) = false) :
    addPartialEq (mkMatch A W) = mkMatch (A ++ (", PartialEq").toList) W := by
  unfold addPartialEq
  rw [hno]
  rw [show ((")]").toList : LC) = cbL from rfl,
    show ((", PartialEq)]").toList : LC) = pcbL from rfl]
  simp only [Bool.false_eq_true, if_false]
  have hsh : mkMatch A W = (deriveHead ++ A) ++ (')' :: ']' :: (W ++ enumTail)) := by
    simp [mkMatch]
  rw [hsh]
  have hDfree : ∀ x ∈ deriveHead, (x == ']') = false := by decide
  have hxfree : ∀ x ∈ deriveHead ++ A, (x == ']') = false := by
    intro x hxm
    rcases List.mem_append.mp hxm with h | h
    · exact hDfree x h
    · have := hA x h
      rwa [Bool.not_eq_true'] at this
  rw [pyReplace_cb_append_free hxfree (by simp)]
  rw [show (cbL : LC) = ')' :: (']' :: []) from rfl]
  rw [pyReplace_cons]
  rw [if_pos (isPrefixOf_iff_append.mpr ⟨W ++ enumTail, by simp⟩)]
  show (deriveHead ++ A) ++ (pcbL ++ pyReplace (W ++ enumTail) (')' :: (']' :: [])) pcbL)
      = mkMatch (A ++ (", PartialEq").toList) W
  rw [show (')' :: (']' :: []) : LC) = cbL from rfl]
  have hTfree : ∀ x ∈ enumTail, (x == ']') = false := by decide
  have hrb : (']' : Char).isWhitespace = false := by decide
  have hzfree : ∀ x ∈ W ++ enumTail, (x == ']') = false := by
    intro x hxm
    rcases List.mem_append.mp hxm with h | h
    · rw [Bool.eq_false_iff]
      intro hb
      have hx : x = ']' := by simpa using hb
      have := hW x h
      rw [hx, hrb] at this
      cases this
    · exact hTfree x h
  rw [pyReplace_cb_id hzfree]
  rw [show (pcbL : LC) = (", PartialEq").toList ++ (')' :: (']' :: [])) from rfl]
  rw [mkMatch]
  simp

theorem mkMatch_has_pe_of_append {A W : LC} :
    hasSub peLit (mkMatch (A ++ (", PartialEq").toList) W) = true := by
  apply hasSub_iff_parts.mpr
  refine ⟨deriveHead ++ A ++ (", ").toList, ')' :: ']' :: W ++ enumTail, ?_⟩
  rw [mkMatch]
  rw [show ((", PartialEq").toList : LC) = (", ").toList ++ peLit from rfl]
  simp

theorem addPartialEq_shape {A W : LC}
    (hA : ∀ a ∈ A, (!(a == ']')) = true) (hW : ∀ w ∈ W, w.isWhitespace = true) :
    ∃ A2, (∀ a ∈ A2, (!(a == ']')) = true) ∧
      addPartialEq (mkMatch A W) = mkMatch A2 W ∧
      hasSub peLit (mkMatch A2 W) = true := by
  by_cases hyes : hasSub peLit (mkMatch A W) = true
  · exact ⟨A, hA, addPartialEq_keeps hyes, hyes⟩
  · have hno : hasSub peLit (mkMatch A W) = false := by
      rwa [Bool.not_eq_true] at hyes
    have hpefree : ∀ a ∈ ((", PartialEq").toList : LC), (!(a == ']')) = true := by
      decide
    refine ⟨A ++ (", PartialEq").toList, ?_,
      addPartialEq_insert hA hW hno, mkMatch_has_pe_of_append⟩
    intro a ha
    rcases List.mem_append.mp ha with h | h
    · exact hA a h
    · exact hpefree a h

theorem isPrefixOf_eq_take {pat cs : LC} :
    pat.isPrefixOf cs = true ↔ cs.take pat.length = pat := by
  rw [isPrefixOf_iff_append]
  constructor
  · rintro ⟨t, rfl⟩
    exact List.take_left _ _
  · intro h
    refine ⟨cs.drop pat.length, ?_⟩
    conv_lhs => rw [← List.take_append_drop pat.length cs]
    rw [h]

theorem mem_of_getElem?_some {l : LC} {i : Nat} {a : Char}
    (h : l[i]? = some a) : a ∈ l := by
  obtain ⟨hi, he⟩ := List.getElem?_eq_some_iff.mp h
  exact he ▸ List.getElem_mem hi

theorem dropWhile_append_of_head {p : Char → Bool} {xs : LC} {y : Char} {ys : LC}
    (hy : p y = false) :
    (xs ++ y :: ys).dropWhile p = xs.dropWhile p ++ y :: ys := by
  induction xs with
  | nil =>
    simp only [List.nil_append, List.dropWhile_nil]
    rw [List.dropWhile_cons_of_neg (by simp [hy])]
  | cons x xs ih =>
    rw [List.cons_append, List.dropWhile_cons, List.dropWhile_cons]
    by_cases hx : p x = true
    · rw [if_pos hx, if_pos hx, ih]
    · rw [if_neg hx, if_neg hx]
      rfl

theorem tryR_fail_getLast {q1 v : LC}
    (hq1 : ∀ a ∈ q1, (!(a == ']')) = true)
    (hlast : (q1.getLast? == some ')') = false) :
    tryR (deriveHead ++ (q1 ++ ']' :: v)) = none := by
  unfold tryR
  rw [if_pos (isPrefixOf_iff_append.mpr ⟨_, rfl⟩)]
  rw [List.drop_left]
  rw [List.takeWhile_append_of_pos hq1, List.takeWhile_cons_of_neg (by decide),
    List.append_nil]
  rw [if_neg (by rw [hlast]; exact Bool.false_ne_true)]

theorem tryR_eval_inner {q1 v : LC}
    (hq1 : ∀ a ∈ q1, (!(a == ']')) = true)
    (hlast : (q1.getLast? == some ')') = true) :
    tryR (deriveHead ++ (q1 ++ ']' :: v)) =
      if enumTail.isPrefixOf (v.dropWhile (fun c => c.isWhitespace)) then
        some (deriveHead ++ q1 ++
            ']' :: v.takeWhile (fun c => c.isWhitespace) ++ enumTail,
          (v.dropWhile (fun c => c.isWhitespace)).drop enumTail.length)
      else none := by
  unfold tryR
  rw [if_pos (isPrefixOf_iff_append.mpr ⟨_, rfl⟩)]
  rw [List.drop_left]
  rw [List.takeWhile_append_of_pos hq1, List.takeWhile_cons_of_neg (by decide),
    List.append_nil]
  rw [List.dropWhile_append_of_pos hq1, List.dropWhile_cons_of_neg (by decide)]
  rw [if_pos hlast]
  rw [if_neg (show ¬ ((']' :: v).isEmpty = true) by simp)]
  simp only [List.tail_cons]

theorem tryR_none_transfer {p2 : LC} (hp2 : p2 ≠ [])
    {A W A2 W2 r r2 : LC}
    (hA : ∀ a ∈ A, (!(a == ']')) = true) (hW : ∀ w ∈ W, w.isWhitespace = true)
    (hA2 : ∀ a ∈ A2, (!(a == ']')) = true) (hW2 : ∀ w ∈ W2, w.isWhitespace = true)
    (h : tryR (p2 ++ mkMatch A W ++ r) = none) :
    tryR (p2 ++ mkMatch A2 W2 ++ r2) = none := by
  by_cases hD : deriveHead.isPrefixOf (p2 ++ mkMatch A W ++ r) = true
  case neg =>
    have key : ∀ (X : LC), (p2 ++ (deriveHead ++ X)).take deriveHead.length
        = p2.take deriveHead.length ++
          deriveHead.take (deriveHead.length - p2.length) := by
      intro X
      rw [List.take_append_eq_append_take]
      congr 1
      rw [List.take_append_eq_append_take]
      have h0 : deriveHead.length - p2.length - deriveHead.length = 0 := by omega
      rw [h0]
      simp
    have f1 : p2 ++ mkMatch A W ++ r
        = p2 ++ (deriveHead ++ (A ++ ')' :: ']' :: W ++ enumTail ++ r)) := by
      simp [mkMatch]
    have f2 : p2 ++ mkMatch A2 W2 ++ r2
        = p2 ++ (deriveHead ++ (A2 ++ ')' :: ']' :: W2 ++ enumTail ++ r2)) := by
      simp [mkMatch]
    have htake : (p2 ++ mkMatch A W ++ r).take deriveHead.length
        = (p2 ++ mkMatch A2 W2 ++ r2).take deriveHead.length := by
      rw [f1, f2, key, key]
    have hD2 : ¬ deriveHead.isPrefixOf (p2 ++ mkMatch A2 W2 ++ r2) = true := by
      intro hc
      apply hD
      rw [isPrefixOf_eq_take] at hc ⊢
      rw [htake]
      exact hc
    unfold tryR
    rw [if_neg hD2]
  case pos =>
    by_cases hlen9 : p2.length < deriveHead.length
    case pos =>
      exfalso
      obtain ⟨t, ht⟩ := isPrefixOf_iff_append.mp hD
      have hm1 : mkMatch A W ++ r
          = '#' :: (("[derive(").toList ++ A ++ ')' :: ']' :: W ++ enumTail ++ r) := by
        simp [mkMatch, deriveHead]
      have e1 : (p2 ++ (mkMatch A W ++ r))[p2.length]? = some '#' := by
        rw [List.getElem?_append_right (le_refl p2.length), Nat.sub_self, hm1]
        rfl
      have e1' : (p2 ++ mkMatch A W ++ r)[p2.length]? = some '#' := by
        rw [List.append_assoc]
        exact e1
      have e2 : (p2 ++ mkMatch A W ++ r)[p2.length]? = deriveHead[p2.length]? := by
        rw [ht]
        exact List.getElem?_append_left hlen9
      rw [e2] at e1'
      have hge1 : 1 ≤ p2.length := by
        cases p2 with
        | nil => exact absurd rfl hp2
        | cons a l => simp
      have hno : ∀ j, j < 9 → 1 ≤ j → deriveHead[j]? ≠ some '#' := by decide
      exact hno p2.length hlen9 hge1 e1'
    case neg =>
      have hp29 : deriveHead.length ≤ p2.length := Nat.le_of_not_lt hlen9
      have htake9 : p2.take deriveHead.length = deriveHead := by
        rw [isPrefixOf_eq_take] at hD
        rw [List.append_assoc, List.take_append_eq_append_take] at hD
        have h0 : deriveHead.length - p2.length = 0 := by omega
        rw [h0] at hD
        simpa using hD
      have hp2split : p2 = deriveHead ++ p2.drop deriveHead.length := by
        conv_lhs => rw [← List.take_append_drop deriveHead.length p2]
        rw [htake9]
      have etext : ∀ (B V s : LC), p2 ++ mkMatch B V ++ s
          = deriveHead ++ (p2.drop deriveHead.length ++ (mkMatch B V ++ s)) := by
        intro B V s
        conv_lhs => rw [hp2split]
        simp
      by_cases hqrb : ∀ a ∈ p2.drop deriveHead.length, (!(a == ']')) = true
      case pos =>
        exfalso
        have hDfree2 : ∀ a ∈ deriveHead, (!(a == ']')) = true := by decide
        have hAall : ∀ a ∈ (p2.drop deriveHead.length ++ deriveHead) ++ A,
            (!(a == ']')) = true := by
          intro a ha
          rcases List.mem_append.mp ha with ha | ha
          · rcases List.mem_append.mp ha with ha | ha
            · exact hqrb a ha
            · exact hDfree2 a ha
          · exact hA a ha
        have hb := tryR_build (A := (p2.drop deriveHead.length ++ deriveHead) ++ A)
          (W := W) r hAall hW
        have heq : mkMatch ((p2.drop deriveHead.length ++ deriveHead) ++ A) W ++ r
            = p2 ++ mkMatch A W ++ r := by
          rw [etext]
          simp [mkMatch]
        rw [heq, h] at hb
        cases hb
      case neg =>
        have hq1all : ∀ a ∈ (p2.drop deriveHead.length).takeWhile
            (fun c => !(c == ']')), (!(a == ']')) = true := by
          intro a ha
          have := List.mem_takeWhile_imp (p := fun c => !(c == ']')) ha
          simpa using this
        obtain ⟨c0, q2, hq2⟩ : ∃ c0 q2,
            (p2.drop deriveHead.length).dropWhile (fun c => !(c == ']')) = c0 :: q2 := by
          cases hu : (p2.drop deriveHead.length).dropWhile (fun c => !(c == ']')) with
          | nil =>
            exfalso
            apply hqrb
            rw [List.dropWhile_eq_nil_iff] at hu
            intro a ha
            exact hu a ha
          | cons c0 q2 => exact ⟨c0, q2, rfl⟩
        have hc0 : c0 = ']' := by
          have := dropWhile_head_false hq2
          simpa using this
        subst hc0
        have hqsplit : p2.drop deriveHead.length
            = (p2.drop deriveHead.length).takeWhile (fun c => !(c == ']')) ++
              ']' :: q2 := by
          conv_lhs => rw [← List.takeWhile_append_dropWhile
            (p := fun c => !(c == ']')) (l := p2.drop deriveHead.length)]
          rw [hq2]
        have etext2 : ∀ (B V s : LC), p2 ++ mkMatch B V ++ s
            = deriveHead ++
              ((p2.drop deriveHead.length).takeWhile (fun c => !(c == ']')) ++
                ']' :: (q2 ++ (mkMatch B V ++ s))) := by
          intro B V s
          rw [etext B V s]
          conv_lhs => rw [hqsplit]
          simp
        by_cases hglast : (((p2.drop deriveHead.length).takeWhile
            (fun c => !(c == ']'))).getLast? == some ')') = true
        case neg =>
          rw [etext2]
          exact tryR_fail_getLast hq1all (Bool.of_not_eq_true hglast)
        case pos =>
          have hold := tryR_eval_inner (v := q2 ++ (mkMatch A W ++ r)) hq1all hglast
          have hnew := tryR_eval_inner (v := q2 ++ (mkMatch A2 W2 ++ r2)) hq1all hglast
          rw [etext2] at h
          rw [hold] at h
          rw [etext2 A2 W2 r2, hnew]
          have hmm2 : ∀ (B V s : LC), mkMatch B V ++ s
              = '#' :: ((("[derive(").toList ++ B ++ ')' :: ']' :: V ++ enumTail) ++ s) := by
            intro B V s
            simp [mkMatch, deriveHead]
          have hdw : ∀ (B V s : LC),
              (q2 ++ (mkMatch B V ++ s)).dropWhile (fun c => c.isWhitespace)
              = q2.dropWhile (fun c => c.isWhitespace) ++ (mkMatch B V ++ s) := by
            intro B V s
            rw [hmm2, dropWhile_append_of_head (by decide), ← hmm2]
          by_cases hTold : enumTail.isPrefixOf
              ((q2 ++ (mkMatch A W ++ r)).dropWhile (fun c => c.isWhitespace)) = true
          · rw [if_pos hTold] at h
            cases h
          · have hnewfalse : ¬ enumTail.isPrefixOf
                ((q2 ++ (mkMatch A2 W2 ++ r2)).dropWhile
                  (fun c => c.isWhitespace)) = true := by
              intro hTnew
              rw [hdw A2 W2 r2] at hTnew
              by_cases hd25 : enumTail.length ≤
                  (q2.dropWhile (fun c => c.isWhitespace)).length
              · apply hTold
                rw [hdw A W r]
                rw [isPrefixOf_eq_take] at hTnew ⊢
                rw [List.take_append_eq_append_take] at hTnew ⊢
                have h0 : enumTail.length -
                    (q2.dropWhile (fun c => c.isWhitespace)).length = 0 := by omega
                rw [h0] at hTnew ⊢
                simp only [List.take_zero, List.append_nil] at hTnew ⊢
                exact hTnew
              · have hdlen : (q2.dropWhile (fun c => c.isWhitespace)).length
                    < enumTail.length := by omega
                rw [isPrefixOf_eq_take] at hTnew
                have hchar : enumTail[(q2.dropWhile
                    (fun c => c.isWhitespace)).length]? = some '#' := by
                  rw [← hTnew, List.getElem?_take, if_pos hdlen,
                    List.getElem?_append_right (le_refl _), Nat.sub_self,
                    hmm2 A2 W2 r2]
                  rfl
                have hmem : ('#' : Char) ∈ enumTail := mem_of_getElem?_some hchar
                revert hmem
                decide
            rw [if_neg hnewfalse]

theorem scanR_shape {cs p m r : LC} (h : scanR cs = some (p, m, r)) :
    ∃ A W, (∀ a ∈ A, (!(a == ']')) = true) ∧
      (∀ w ∈ W, w.isWhitespace = true) ∧ m = mkMatch A W := by
  obtain ⟨-, h2, -⟩ := scanR_char h
  obtain ⟨A, W, hA, hW, hm, -⟩ := tryR_some_shape h2
  exact ⟨A, W, hA, hW, hm⟩

theorem scanR_subst {cs p m r : LC} (h : scanR cs = some (p, m, r))
    {A2 W2 : LC} (hA2 : ∀ a ∈ A2, (!(a == ']')) = true)
    (hW2 : ∀ w ∈ W2, w.isWhitespace = true) (r2 : LC) :
    scanR (p ++ mkMatch A2 W2 ++ r2) = some (p, mkMatch A2 W2, r2) := by
  obtain ⟨hcs, htry, hfail⟩ := scanR_char h
  obtain ⟨A, W, hA, hW, hm, -⟩ := tryR_some_shape htry
  apply scanR_build (tryR_build r2 hA2 hW2)
  intro p1 p2 hp hne
  have hf := hfail p1 p2 hp hne
  rw [hm] at hf
  exact tryR_none_transfer hne hA hW hA2 hW2 hf

theorem addPartialEq_pe {A W : LC}
    (hA : ∀ a ∈ A, (!(a == ']')) = true)
    (hW : ∀ w ∈ W, w.isWhitespace = true) :
    hasSub peLit (addPartialEq (mkMatch A W)) = true := by
  obtain ⟨A2, -, hpe, hpe2⟩ := addPartialEq_shape hA hW
  rw [hpe]
  exact hpe2

theorem matchesR_subR_aux : ∀ n (cs : LC), cs.length ≤ n →
    matchesR (subR cs) = (matchesR cs).map addPartialEq := by
  intro n
  induction n with
  | zero =>
    intro cs hle
    have h0 : cs = [] := List.eq_nil_of_length_eq_zero (Nat.le_zero.mp hle)
    subst h0
    rfl
  | succ n ih =>
    intro cs hle
    cases hscan : scanR cs with
    | none =>
      rw [subR_none hscan, matchesR_none hscan]
      rfl
    | some pmr =>
      obtain ⟨p, m, r⟩ := pmr
      obtain ⟨A, W, hA, hW, hm⟩ := scanR_shape hscan
      obtain ⟨A2, hA2, hpe, -⟩ := addPartialEq_shape hA hW
      have hsub : subR cs = p ++ mkMatch A2 W ++ subR r := by
        rw [subR_some hscan, hm, hpe]
      have hscan2 : scanR (p ++ mkMatch A2 W ++ subR r)
          = some (p, mkMatch A2 W, subR r) := scanR_subst hscan hA2 hW (subR r)
      have hlr : r.length < cs.length := scanR_some_length hscan
      rw [hsub, matchesR_some hscan2, matchesR_some hscan, List.map_cons,
        ih r (by omega), hm, hpe]

theorem matchesR_subR (cs : LC) :
    matchesR (subR cs) = (matchesR cs).map addPartialEq :=
  matchesR_subR_aux cs.length cs le_rfl

theorem matchesR_canonical : ∀ n (cs : LC), cs.length ≤ n →
    ∀ m ∈ matchesR cs, ∃ A W, (∀ a ∈ A, (!(a == ']')) = true) ∧
      (∀ w ∈ W, w.isWhitespace = true) ∧ m = mkMatch A W := by
  intro n
  induction n with
  | zero =>
    intro cs hle m hm
    have h0 : cs = [] := List.eq_nil_of_length_eq_zero (Nat.le_zero.mp hle)
    subst h0
    cases hm
  | succ n ih =>
    intro cs hle m hm
    cases hscan : scanR cs with
    | none =>
      rw [matchesR_none hscan] at hm
      cases hm
    | some pmr =>
      obtain ⟨p, m0, r⟩ := pmr
      rw [matchesR_some hscan] at hm
      have hlr : r.length < cs.length := scanR_some_length hscan
      rcases List.mem_cons.mp hm with h0 | h0
      · obtain ⟨A, W, hA, hW, hm0⟩ := scanR_shape hscan
        exact ⟨A, W, hA, hW, by rw [h0, hm0]⟩
      · exact ih r (by omega) m h0

theorem subR_id_of_allPE_aux : ∀ n (cs : LC), cs.length ≤ n →
    (∀ m ∈ matchesR cs, hasSub peLit m = true) → subR cs = cs := by
  intro n
  induction n with
  | zero =>
    intro cs hle _
    have h0 : cs = [] := List.eq_nil_of_length_eq_zero (Nat.le_zero.mp hle)
    subst h0
    rfl
  | succ n ih =>
    intro cs hle hall
    cases hscan : scanR cs with
    | none => exact subR_none hscan
    | some pmr =>
      obtain ⟨p, m, r⟩ := pmr
      have hmem : m ∈ matchesR cs := by
        rw [matchesR_some hscan]
        exact List.mem_cons_self m _
      have hkeep : addPartialEq m = m := addPartialEq_keeps (hall m hmem)
      have hlr : r.length < cs.length := scanR_some_length hscan
      have hrest : ∀ m' ∈ matchesR r, hasSub peLit m' = true := by
        intro m' hm'
        apply hall
        rw [matchesR_some hscan]
        exact List.mem_cons_of_mem m hm'
      rw [subR_some hscan, hkeep, ih r (by omega) hrest]
      exact (scanR_consumes hscan).1.symm

/-- C9: the regex fallback of `fix_resolution_type` is idempotent.  First
conjunct: when every derive-attribute match of the `ResolutionType` regex
already contains `PartialEq`, the `add_partialeq` substitution returns the
text unchanged.  Second conjunct: applying the fallback twice to any text
equals applying it once. -/
theorem c9_fallback_idempotent :
    (∀ cs : LC, (∀ m ∈ matchesR cs, hasSub peLit m = true) → subR cs = cs) ∧
    (∀ cs : LC, subR (subR cs) = subR cs) := by
  constructor
  · intro cs hall
    exact subR_id_of_allPE_aux cs.length cs le_rfl hall
  · intro cs
    apply subR_id_of_allPE_aux (subR cs).length (subR cs) le_rfl
    intro m hm
    rw [matchesR_subR] at hm
    obtain ⟨m', hm', hmap⟩ := List.mem_map.mp hm
    obtain ⟨A, W, hA, hW, hcan⟩ :=
      matchesR_canonical cs.length cs le_rfl m' hm'
    rw [← hmap, hcan]
    exact addPartialEq_pe hA hW

/-- C9 witness: a text whose derive attribute already carries `PartialEq`
is returned unchanged, and on a text lacking it the substitution is a
fixpoint after one application. -/
theorem c9_witness :
    subR (("#[derive(Debug, Clone, PartialEq)]\npub enum ResolutionType \x7b E \x7d").toList)
      = ("#[derive(Debug, Clone, PartialEq)]\npub enum ResolutionType \x7b E \x7d").toList
    ∧ subR (subR (("#[derive(Debug, Clone)]\npub enum ResolutionType \x7b E \x7d").toList))
      = subR (("#[derive(Debug, Clone)]\npub enum ResolutionType \x7b E \x7d").toList) := by
  constructor
  · exact c9_fallback_idempotent.1 _ (by decide)
  · exact c9_fallback_idempotent.2 _

end WC
